import Mathlib

/-!
# bar-extract: recursive extraction of nested zip and gzip archives

A shallow embedding of `utils/zip/zip.go` and `main.go`.

* Go strings and file contents are byte sequences (`Bytes`).
* The Go standard-library functions the program calls (`path.Ext`, `path.Clean`, `path.Join`,
  `path.Base`, `strings.TrimSuffix`, `os.MkdirAll`, `os.Create`) are transcribed from their
  Go sources; loops carry a fuel argument and a theorem shows the fuel handed over suffices.
* The filesystem is a map from cleaned paths to nodes. Path resolution is lexical (a
  non-empty path names the node stored under `path.Clean` of it; there are no links,
  symbolic or hard), and the working directory, the root and the chains of `..` are
  directories that always exist, with mode 0755. No node is ever removed or renamed, so an open file is the
  node under the path it was opened with.
* The process is taken to be the unprivileged owner of the directories: a node is created
  or truncated only when the owner's search bit is set on every directory on the way to it,
  and created only when the owner's write bit is set on the directory that is to hold it (the
  file mode creation mask is taken to leave the owner's bits alone). Reading is not
  restricted, and modes of regular files are not modelled: every regular file can be read
  and truncated. The device does not fail (no quota, no I/O error).
* `archive/zip` and `compress/gzip` are a parameter (`Codec`). `zip.OpenReader` reads the
  directory of the archive; the bytes of an entry are read from the file when the entry is
  copied, after `os.Create`, so the decoder is given the content the file has at that moment.
* A run returns the error, the filesystem it leaves behind and a trace: the paths logged by
  `ExtractRecursive` ("Extracting file: ...") and the files written (path and bytes, and
  whether the copy ended without error). The other log lines (the pretty-printed tree) are
  not recorded.
-/

set_option autoImplicit false

namespace BarExtract

/-! ## Bytes and strings -/

/-- A Go string or a file content. -/
abbrev Bytes := List UInt8

/-- The bytes of an ASCII literal. -/
def str (s : String) : Bytes := s.data.map (fun c => c.toNat.toUInt8)

/-- The byte `/`. -/
def slash : UInt8 := 0x2F

/-- The byte `.`. -/
def dot : UInt8 := 0x2E

/-! ## Go standard library: `path` and `strings` -/

/-- The loop of `path.Ext`: `for i := len(path) - 1; i >= 0 && path[i] != '/'; i--` with
`if path[i] == '.' { return path[i:] }`. The first argument is `path[:i+1]` reversed, the
second is `path[i+1:]`. -/
def extScan : Bytes → Bytes → Bytes
  | [], _ => []
  | c :: before, after =>
    if c = slash then []
    else if c = dot then c :: after
    else extScan before (c :: after)

/-- Go `path.Ext`: the suffix beginning at the final dot in the final slash-separated
element of `path`; empty if there is no dot. -/
def Ext (path : Bytes) : Bytes := extScan path.reverse []

/-- Go `strings.TrimSuffix`. -/
def TrimSuffix (s suffix : Bytes) : Bytes :=
  if suffix.isSuffixOf s then s.take (s.length - suffix.length) else s

/-- The loop of `lazybuf` backtracking in `path.Clean`, entered after the first `out.w--`:
`for out.w > dotdot && out.index(out.w) != '/' { out.w-- }`; returns the final `out.w`. -/
def backtrack (buf : Bytes) (dotdot : Nat) : Nat → Nat
  | 0 => 0
  | w + 1 =>
    if w + 1 > dotdot ∧ buf.get? (w + 1) ≠ some slash then backtrack buf dotdot w else w + 1

/-- The main loop of `path.Clean` (`for r < n { switch ... }`): `rest` is `path[r:]`, `out`
is the written part of the buffer. One unit of fuel per iteration. -/
def cleanLoop (rooted : Bool) : Nat → Bytes → Bytes → Nat → Option Bytes
  | 0, _, _, _ => none
  | fuel + 1, rest, out, dotdot =>
    match rest with
    | [] => some out
    | c :: t =>
      if c = slash then
        -- empty path element
        cleanLoop rooted fuel t out dotdot
      else if c = dot ∧ (t = [] ∨ t.head? = some slash) then
        -- . element
        cleanLoop rooted fuel t out dotdot
      else if c = dot ∧ t.head? = some dot ∧ (t.tail = [] ∨ t.tail.head? = some slash) then
        -- .. element: remove to last /
        if out.length > dotdot then
          cleanLoop rooted fuel t.tail
            (out.take (backtrack out dotdot (out.length - 1))) dotdot
        else if rooted = false then
          let out1 := (if out.length > 0 then out ++ [slash] else out) ++ [dot, dot]
          cleanLoop rooted fuel t.tail out1 out1.length
        else
          cleanLoop rooted fuel t.tail out dotdot
      else
        -- real path element: add slash if needed, copy element
        let out1 :=
          if (rooted = true ∧ out.length ≠ 1) ∨ (rooted = false ∧ out.length ≠ 0)
          then out ++ [slash] else out
        cleanLoop rooted fuel (rest.dropWhile (fun b => b ≠ slash))
          (out1 ++ rest.takeWhile (fun b => b ≠ slash)) dotdot

/-- The result of the loop of `path.Clean` on `path`, started as the Go code starts it. -/
def cleanRun (path : Bytes) : Option Bytes :=
  if path.head? = some slash then cleanLoop true (path.length + 1) path.tail [slash] 1
  else cleanLoop false (path.length + 1) path [] 0

/-- Go `path.Clean`: the shortest path name equivalent to `path` by purely lexical
processing. (`cleanRun_isSome` shows the loop always ends within its fuel.) -/
def Clean (path : Bytes) : Bytes :=
  if path = [] then [dot]
  else
    match cleanRun path with
    | some out => if out = [] then [dot] else out
    | none => [dot]

/-- The buffer loop of `path.Join`. -/
def joinBuf : List Bytes → Bytes → Bytes
  | [], buf => buf
  | e :: es, buf =>
    if buf.length > 0 ∨ e ≠ [] then
      joinBuf es ((if buf.length > 0 then buf ++ [slash] else buf) ++ e)
    else joinBuf es buf

/-- Go `path.Join`: joins the elements with slashes (empty leading elements are dropped) and
cleans the result; the empty string when every element is empty. -/
def Join (elem : List Bytes) : Bytes :=
  if (elem.map List.length).sum = 0 then [] else Clean (joinBuf elem [])

/-- The text of `path` after its last slash (all of `path` when it has none). -/
def lastElement (path : Bytes) : Bytes :=
  (path.reverse.takeWhile (fun b => b ≠ slash)).reverse

/-- Go `path.Base`: the last element of `path`, trailing slashes removed first. -/
def Base (path : Bytes) : Bytes :=
  if path = [] then [dot]
  else
    let stripped := (path.reverse.dropWhile (fun b => b = slash)).reverse
    let base := lastElement stripped
    if base = [] then [slash] else base

/-! ## `removeAllExtensions` -/

/-- The loop of `removeAllExtensions`:
`for ext := path.Ext(base); ext != ""; ext = path.Ext(base) { base = strings.TrimSuffix(base, ext) }`.
One unit of fuel per test of the loop condition. -/
def removeAllExtensionsLoop : Nat → Bytes → Option Bytes
  | 0, _ => none
  | fuel + 1, base =>
    if Ext base = [] then some base
    else removeAllExtensionsLoop fuel (TrimSuffix base (Ext base))

/-- The function `removeAllExtensions` of zip.go. (`removeAllExtensionsLoop_eq` shows the
loop ends within `len(filePath) + 1` tests.) -/
def removeAllExtensions (filePath : Bytes) : Bytes :=
  match removeAllExtensionsLoop (filePath.length + 1) filePath with
  | some base => base
  | none => filePath

/-- The reading of the specification: `path` cut just before the first dot that occurs after
its last slash, unchanged when the final element has no dot. -/
def cutAtFirstDot (path : Bytes) : Bytes :=
  path.take (path.length - (lastElement path).length) ++
    (lastElement path).takeWhile (fun b => b ≠ dot)

/-! ## Errors -/

/-- The error numbers the filesystem model reports. -/
inductive Errno where
  | ENOENT
  | ENOTDIR
  | EISDIR
  | EEXIST
  | EACCES
  | EINVAL
  deriving DecidableEq, Repr

/-- A Go `error` value. -/
inductive GoError where
  /-- An `*fs.PathError` of package os -/
  | pathError (op : Bytes) (path : Bytes) (errno : Errno)
  /-- An error that is its text alone: `errors.New`, `fmt.Errorf` without `%w`, the error
  values of archive/zip, compress/gzip, compress/flate and io -/
  | msg (text : Bytes)
  /-- The value of `fmt.Errorf(text + ": %w", inner)` -/
  | wrap (text : Bytes) (inner : GoError)
  deriving DecidableEq, Repr

/-- The text of an error number. -/
def Errno.text : Errno → Bytes
  | .ENOENT => str "no such file or directory"
  | .ENOTDIR => str "not a directory"
  | .EISDIR => str "is a directory"
  | .EEXIST => str "file exists"
  | .EACCES => str "permission denied"
  | .EINVAL => str "invalid argument"

/-- The method `Error()`: the message of an error value. -/
def GoError.Error : GoError → Bytes
  | .pathError op path errno => op ++ str " " ++ path ++ str ": " ++ errno.text
  | .msg text => text
  | .wrap text inner => text ++ str ": " ++ inner.Error

/-- The innermost error of a chain of `%w` wrappings. -/
def GoError.cause : GoError → GoError
  | .wrap _ inner => inner.cause
  | e => e

/-- The texts `fmt.Errorf` put around the cause, outermost first. -/
def GoError.context : GoError → List Bytes
  | .wrap text inner => text :: inner.context
  | _ => []

/-! ## Filesystem -/

/-- A node of the filesystem. -/
inductive Node where
  | file (content : Bytes)
  | dir (perm : Nat)
  deriving DecidableEq, Repr

/-- The stored nodes, by cleaned path. -/
abbrev FS := Bytes → Option Node

/-- The filesystem that stores nothing. -/
def FS.empty : FS := fun _ => none

/-- Store `node` under the key `k`. -/
def FS.set (fs : FS) (k : Bytes) (node : Node) : FS :=
  fun q => if q = k then some node else fs q

/-- Keys `..`, `../..`, ... -/
def dotdotOnly : Bytes → Bool
  | [a, b] => a == dot && b == dot
  | a :: b :: c :: rest => a == dot && b == dot && c == slash && dotdotOnly rest
  | _ => false

/-- The directories that exist whatever is stored: root, working directory and its
ancestors. -/
def alwaysDir (k : Bytes) : Bool :=
  k == [slash] || k == [dot] || dotdotOnly k

/-- The node at a cleaned path. -/
def FS.lookup (fs : FS) (k : Bytes) : Option Node :=
  if alwaysDir k then some (.dir 0o755) else fs k

/-- The node a path names (what `os.Stat` sees); the empty path names nothing. -/
def FS.node (fs : FS) (path : Bytes) : Option Node :=
  if path = [] then none else fs.lookup (Clean path)

/-- The directory holding the node of cleaned path `k`. -/
def parentKey (k : Bytes) : Bytes :=
  let before := k.take (k.length - (lastElement k).length - 1)
  if (lastElement k).length = k.length then [dot]
  else if before = [] then [slash]
  else before

/-- Whether the owner of a directory with these permission bits may add an entry to it: the
owner's write bit and search bit. -/
def ownerMayAdd (perm : Nat) : Bool := perm / 0o200 % 2 == 1 && perm / 0o100 % 2 == 1

/-- The directories a walk to the cleaned path `k` goes through before the one that holds
its last element is reached and that one itself: "a" and "a/b" for "a/b/c", "/" and "/a" for
"/a/b", none for "a" (the working directory can always be searched). The second argument is
the text already read, reversed. -/
def ancestorsFrom : Bytes → Bytes → List Bytes
  | [], _ => []
  | c :: t, pre =>
    if c = slash then
      (if pre = [] then [slash] else pre.reverse) :: ancestorsFrom t (c :: pre)
    else ancestorsFrom t (c :: pre)

/-- The directories on the way to the cleaned path `k`, the outermost first. -/
def ancestors (k : Bytes) : List Bytes := ancestorsFrom k []

/-- The error of going through the directory `q` on the way to a node below it: it is
missing, it is a regular file, or the owner's search bit is not set. -/
def searchError (fs : FS) (q : Bytes) : Option Errno :=
  match fs.lookup q with
  | none => some .ENOENT
  | some (.file _) => some .ENOTDIR
  | some (.dir m) => if m / 0o100 % 2 == 1 then none else some .EACCES

/-- The error on which the walk to the cleaned path `k` ends before it reaches the last
element, if it does. -/
def walkError (fs : FS) (k : Bytes) : Option Errno :=
  (ancestors k).findSome? (searchError fs)

/-- Go `os.Mkdir`. A path with a NUL byte is refused before the system call. -/
def Mkdir (fs : FS) (path : Bytes) (perm : Nat) : FS × Option GoError :=
  if path = [] then (fs, some (.pathError (str "mkdir") path .ENOENT))
  else if path.contains 0 then (fs, some (.pathError (str "mkdir") path .EINVAL))
  else
    match walkError fs (Clean path) with
    | some errno => (fs, some (.pathError (str "mkdir") path errno))
    | none =>
      match fs.lookup (Clean path) with
      | some _ => (fs, some (.pathError (str "mkdir") path .EEXIST))
      | none =>
        match fs.lookup (parentKey (Clean path)) with
        | some (.dir m) =>
          if ownerMayAdd m then (fs.set (Clean path) (.dir perm), none)
          else (fs, some (.pathError (str "mkdir") path .EACCES))
        | some (.file _) => (fs, some (.pathError (str "mkdir") path .ENOTDIR))
        | none => (fs, some (.pathError (str "mkdir") path .ENOENT))

/-- Go `os.MkdirAll`, one unit of fuel per call: the fast path on `os.Stat`, else the parent
first (`path[:j-1]`, the text before the last element) and then `os.Mkdir`. -/
def MkdirAllLoop : Nat → FS → Bytes → Nat → Option (FS × Option GoError)
  | 0, _, _, _ => none
  | fuel + 1, fs, path, perm =>
    match fs.node path with
    | some (.dir _) => some (fs, none)
    | some (.file _) => some (fs, some (.pathError (str "mkdir") path .ENOTDIR))
    | none =>
      -- skip trailing path separators, then scan backward over the element
      let i := (path.reverse.dropWhile (fun b => b = slash)).length
      let j := ((path.take i).reverse.dropWhile (fun b => b ≠ slash)).length
      let parent :=
        if j > 1 then MkdirAllLoop fuel fs (path.take (j - 1)) perm else some (fs, none)
      match parent with
      | none => none
      | some (fs1, some e) => some (fs1, some e)
      | some (fs1, none) =>
        match Mkdir fs1 path perm with
        | (fs2, none) => some (fs2, none)
        | (fs2, some e) =>
          match fs2.node path with
          | some (.dir _) => some (fs2, none)
          | _ => some (fs2, some e)

/-- Go `os.MkdirAll`. (`MkdirAllLoop_isSome` shows the recursion ends within its fuel.) -/
def MkdirAll (fs : FS) (path : Bytes) (perm : Nat) : FS × Option GoError :=
  match MkdirAllLoop (path.length + 1) fs path perm with
  | some r => r
  | none => (fs, some (.pathError (str "mkdir") path .ENOENT))

/-- Go `os.Create`: create or truncate the named file. A path with a NUL byte is refused
before the system call. -/
def Create (fs : FS) (path : Bytes) : FS × Option GoError :=
  if path = [] then (fs, some (.pathError (str "open") path .ENOENT))
  else if path.contains 0 then (fs, some (.pathError (str "open") path .EINVAL))
  else
    match walkError fs (Clean path) with
    | some errno => (fs, some (.pathError (str "open") path errno))
    | none =>
      match fs.lookup (Clean path) with
      | some (.dir _) => (fs, some (.pathError (str "open") path .EISDIR))
      | some (.file _) => (fs.set (Clean path) (.file []), none)
      | none =>
        match fs.lookup (parentKey (Clean path)) with
        | some (.dir m) =>
          if ownerMayAdd m then (fs.set (Clean path) (.file []), none)
          else (fs, some (.pathError (str "open") path .EACCES))
        | some (.file _) => (fs, some (.pathError (str "open") path .ENOTDIR))
        | none => (fs, some (.pathError (str "open") path .ENOENT))

/-- What `io.Copy` leaves in the file just created at `path`: the bytes delivered. -/
def writeFile (fs : FS) (path : Bytes) (data : Bytes) : FS :=
  fs.set (Clean path) (.file data)

/-! ## Format detection -/

/-- The function `readHeader` of zip.go: the first `n` bytes of the file, or failure when
the file cannot be opened or read or holds fewer than `n` bytes. -/
def readHeader (fs : FS) (filePath : Bytes) (n : Nat) : Option Bytes :=
  match fs.node filePath with
  | none => none
  | some (.dir _) => none
  | some (.file content) =>
    let header := content.take n
    if header.length < n then none else some header

/-- The function `isZipFile` of zip.go. -/
def isZipFile (fs : FS) (filePath : Bytes) : Bool :=
  match readHeader fs filePath 4 with
  | none => false
  | some header =>
    header.get? 0 == some 0x50 && header.get? 1 == some 0x4B &&
      header.get? 2 == some 0x03 && header.get? 3 == some 0x04

/-- The function `isGzipFile` of zip.go. -/
def isGzipFile (fs : FS) (filePath : Bytes) : Bool :=
  match readHeader fs filePath 2 with
  | none => false
  | some header => header.get? 0 == some 0x1F && header.get? 1 == some 0x8B

/-- The function `IsZipOrGzip` of zip.go. -/
def IsZipOrGzip (fs : FS) (filePath : Bytes) : Bool :=
  isZipFile fs filePath || isGzipFile fs filePath

/-- The zip local-file-header signature at the head of a content. -/
def zipMagic : Bytes := [0x50, 0x4B, 0x03, 0x04]

/-- The gzip signature at the head of a content. -/
def gzipMagic : Bytes := [0x1F, 0x8B]

/-- A content that begins with one of the two signatures. -/
def hasSignature (content : Bytes) : Prop :=
  content.take 4 = zipMagic ∨ content.take 2 = gzipMagic

instance (content : Bytes) : Decidable (hasSignature content) := by
  unfold hasSignature; infer_instance

/-! ## Containers -/

/-- An entry of a zip archive as `archive/zip` presents it after `zip.OpenReader` read the
directory of the archive (`*zip.File`). -/
structure ZipEntry where
  /-- The field `Name` -/
  name : Bytes
  /-- The result of `Mode()`; `FileInfo().IsDir()` is its bit `fs.ModeDir` -/
  mode : Nat
  /-- Where the entry is stored in the archive file (the field `headerOffset`) -/
  headerOffset : Nat
  deriving DecidableEq, Repr

/-- Go `fs.ModeDir`, the bit `1 << 31` of a file mode. -/
def ModeDir : Nat := 2 ^ 31

/-- The value of `f.FileInfo().IsDir()`. -/
def ZipEntry.IsDir (f : ZipEntry) : Bool := f.mode / ModeDir % 2 == 1

/-- A gzip stream as `compress/gzip` presents it (`*gzip.Reader`) while its file is left as
it was when `gzip.NewReader` read the header. -/
structure GzipStream where
  /-- The header field `Name`, empty when the stream embeds none -/
  name : Bytes
  /-- The bytes `io.Copy` reads from the stream before it stops -/
  data : Bytes
  /-- The error on which `io.Copy` stops, if it is not the end of the stream -/
  copyErr : Option GoError
  deriving DecidableEq, Repr

/-- The two decoders of the Go standard library. Both read from the open file while the
program runs, so what they deliver depends on the content the file has when they read. -/
structure Codec where
  /-- The result of `zip.OpenReader` on a file of this content: the entries of its
  directory -/
  openZip : Bytes → Except GoError (List ZipEntry)
  /-- The error of `f.Open()`, if it fails, for the entry `f` of an archive that held
  `opened` when `zip.OpenReader` read it and holds `current` now (`Open` reads the header in
  front of the entry from the file) -/
  openEntry : (opened : Bytes) → (f : ZipEntry) → (current : Bytes) → Option GoError
  /-- The bytes `io.Copy` reads from the entry `f` before it stops, and the error on which it
  stops if that is not the end of the entry, for an archive that held `opened` when
  `zip.OpenReader` read it and holds `current` when the copy starts -/
  readEntry : (opened : Bytes) → (f : ZipEntry) → (current : Bytes) → Bytes × Option GoError
  /-- The result of `gzip.NewReader` on a file of this content -/
  newGzipReader : Bytes → Except GoError GzipStream
  /-- The bytes `io.Copy` reads from a gzip stream, and the error on which it stops, when
  `os.Create` has truncated the file of the stream itself before the copy (the output path
  names that file): what `gzip.NewReader` had buffered of the content is still read, the
  rest of the file is gone -/
  readGzipInPlace : Bytes → Bytes × Option GoError

/-- Go `zip.OpenReader(filePath)`. -/
def Codec.OpenReader (codec : Codec) (fs : FS) (filePath : Bytes) :
    Except GoError (List ZipEntry) :=
  match fs.node filePath with
  | none => .error (.pathError (str "open") filePath .ENOENT)
  | some (.dir _) => .error (.pathError (str "read") filePath .EISDIR)
  | some (.file content) => codec.openZip content

/-- The content of the regular file `filePath` names (empty when it names none): what a
read of the open archive finds. -/
def archiveContent (fs : FS) (filePath : Bytes) : Bytes :=
  match fs.node filePath with
  | some (.file content) => content
  | _ => []

/-! ## Recursive extraction -/

/-- What a run leaves to observe. -/
inductive Event where
  /-- The log line `Extracting file: filePath` that opens `ExtractRecursive(filePath)` -/
  | extracting (filePath : Bytes)
  /-- The call `os.Create(destPath)` succeeded and `io.Copy` copied `data` into the file and
  returned no error -/
  | wrote (destPath : Bytes) (data : Bytes)
  /-- The call `os.Create(destPath)` succeeded and `io.Copy` returned an error after it had
  copied `data` into the file -/
  | copyFailed (destPath : Bytes) (data : Bytes)
  deriving DecidableEq, Repr

/-- Whether the event wrote the file stored under the key `k`. -/
def Event.writes (k : Bytes) : Event → Bool
  | .wrote destPath _ => Clean destPath == k
  | .copyFailed destPath _ => Clean destPath == k
  | .extracting _ => false

/-- The result of a call: the error returned (`none` for `nil`), the filesystem left
behind, the events in order. -/
structure Run where
  err : Option GoError
  fs : FS
  trace : List Event

/-- The same result with earlier events put in front. -/
def Run.after (events : List Event) (r : Run) : Run :=
  { r with trace := events ++ r.trace }

/-- The lines `if IsZipOrGzip(destPath) { if err := ExtractRecursive(destPath); ... }` that
end both extraction functions, after `data` was copied into `destPath` leaving `fs`; `recur`
is `ExtractRecursive`. The result is `none` when `recur` does not return. -/
def extractNested (recur : FS → Bytes → Option Run) (fs : FS) (destPath data : Bytes) :
    Option Run :=
  if IsZipOrGzip fs destPath then
    match recur fs destPath with
    | none => none
    | some r =>
      match r.err with
      | some e =>
        some ⟨some (.wrap (str "failed to recursively extract " ++ destPath) e),
          r.fs, .wrote destPath data :: r.trace⟩
      | none => some ⟨none, r.fs, .wrote destPath data :: r.trace⟩
  else some ⟨none, fs, [.wrote destPath data]⟩

/-- The body of the loop `for _, f := range archive.File` of `extractZipRecursive` for the
entry `f` of the archive `filePath`, which held `opened` when it was opened; `recur` is
`ExtractRecursive`. An error in the result is the error the function returns from inside the
loop; no error means the loop goes on. The result is `none` when `recur` does not return. -/
def extractZipEntry (codec : Codec) (recur : FS → Bytes → Option Run)
    (filePath opened baseDestination : Bytes) (f : ZipEntry) (fs : FS) : Option Run :=
  let destPath := Join [baseDestination, f.name]
  if f.IsDir then
    match MkdirAll fs destPath f.mode with
    | (fs1, some e) => some ⟨some (.wrap (str "failed to create directory") e), fs1, []⟩
    | (fs1, none) => some ⟨none, fs1, []⟩
  else
    match codec.openEntry opened f (archiveContent fs filePath) with
    | some e => some ⟨some (.wrap (str "failed to open file in zip") e), fs, []⟩
    | none =>
      match Create fs destPath with
      | (fs1, some e) => some ⟨some (.wrap (str "failed to create file") e), fs1, []⟩
      | (fs1, none) =>
        match codec.readEntry opened f (archiveContent fs1 filePath) with
        | (data, some e) =>
          some ⟨some (.wrap (str "failed to copy file") e), writeFile fs1 destPath data,
            [.copyFailed destPath data]⟩
        | (data, none) =>
          -- Unified recursive extraction
          extractNested recur (writeFile fs1 destPath data) destPath data

/-- The loop `for _, f := range archive.File` of `extractZipRecursive`: the entries in the
order of the archive, ended by the first error. -/
def extractZipEntries (codec : Codec) (recur : FS → Bytes → Option Run)
    (filePath opened baseDestination : Bytes) : List ZipEntry → FS → Option Run
  | [], fs => some ⟨none, fs, []⟩
  | f :: rest, fs =>
    match extractZipEntry codec recur filePath opened baseDestination f fs with
    | none => none
    | some r =>
      match r.err with
      | some _ => some r
      | none =>
        (extractZipEntries codec recur filePath opened baseDestination rest r.fs).map
          (Run.after r.trace)

/-- The function `extractZipRecursive` of zip.go; `recur` is `ExtractRecursive`. -/
def extractZipRecursive (codec : Codec) (recur : FS → Bytes → Option Run) (fs : FS)
    (filePath : Bytes) : Option Run :=
  match codec.OpenReader fs filePath with
  | .error e => some ⟨some e, fs, []⟩
  | .ok entries =>
    match MkdirAll fs (removeAllExtensions filePath) 0o755 with
    | (fs1, some e) =>
      some ⟨some (.wrap (str "failed to create destination directory") e), fs1, []⟩
    | (fs1, none) =>
      extractZipEntries codec recur filePath (archiveContent fs filePath)
        (removeAllExtensions filePath) entries fs1

/-- The name of the single output of a gzip stream: the header name if available,
otherwise the base name of the destination. -/
def gzipOutName (baseDestination : Bytes) (gz : GzipStream) : Bytes :=
  if gz.name = [] then Base baseDestination else gz.name

/-- What `io.Copy(outFile, gzReader)` reads: the stream as opened, unless `destPath` names
the file of the stream, which `os.Create` has then truncated. -/
def gzipDelivered (codec : Codec) (filePath content destPath : Bytes) (gz : GzipStream) :
    Bytes × Option GoError :=
  if Clean destPath = Clean filePath then codec.readGzipInPlace content
  else (gz.data, gz.copyErr)

/-- The function `extractGzipRecursive` of zip.go; `recur` is `ExtractRecursive`. -/
def extractGzipRecursive (codec : Codec) (recur : FS → Bytes → Option Run) (fs : FS)
    (filePath : Bytes) : Option Run :=
  match MkdirAll fs (removeAllExtensions filePath) 0o755 with
  | (fs1, some e) =>
    some ⟨some (.wrap (str "failed to create destination directory") e), fs1, []⟩
  | (fs1, none) =>
    match fs1.node filePath with
    | none =>
      some ⟨some (.wrap (str "failed to open gzip file")
        (.pathError (str "open") filePath .ENOENT)), fs1, []⟩
    | some (.dir _) =>
      some ⟨some (.wrap (str "failed to create gzip reader")
        (.pathError (str "read") filePath .EISDIR)), fs1, []⟩
    | some (.file content) =>
      match codec.newGzipReader content with
      | .error e => some ⟨some (.wrap (str "failed to create gzip reader") e), fs1, []⟩
      | .ok gz =>
        let destPath :=
          Join [removeAllExtensions filePath, gzipOutName (removeAllExtensions filePath) gz]
        match Create fs1 destPath with
        | (fs2, some e) =>
          some ⟨some (.wrap (str "failed to create decompressed file") e), fs2, []⟩
        | (fs2, none) =>
          match gzipDelivered codec filePath content destPath gz with
          | (data, some e) =>
            some ⟨some (.wrap (str "failed to decompress gzip") e),
              writeFile fs2 destPath data, [.copyFailed destPath data]⟩
          | (data, none) =>
            -- Unified recursive extraction
            extractNested recur (writeFile fs2 destPath data) destPath data

/-- The function `ExtractRecursive` of zip.go. One unit of fuel per call, so the result is
`none` when the nesting is deeper than the fuel. The pretty-printing of the extracted tree
only writes log lines and is left out. -/
def ExtractRecursive (codec : Codec) : Nat → FS → Bytes → Option Run
  | 0, _, _ => none
  | fuel + 1, fs, filePath =>
    (if isZipFile fs filePath then
      extractZipRecursive codec (ExtractRecursive codec fuel) fs filePath
    else
      extractGzipRecursive codec (ExtractRecursive codec fuel) fs filePath).map
      (Run.after [.extracting filePath])

/-! ## The command -/

/-- The function `ValidateFile` of main.go; `none` is `nil`. -/
def ValidateFile (fs : FS) (filePath : Bytes) : Option GoError :=
  match fs.node filePath with
  | none => some (.pathError (str "stat") filePath .ENOENT)
  | some _ =>
    if !IsZipOrGzip fs filePath then
      some (.msg (str "file " ++ filePath ++ str " is not zip/gzip"))
    else none

/-- Go `os.OpenFile(path, os.O_RDWR|os.O_CREATE|os.O_APPEND, 0666)`: the file is created
empty when it is missing and kept as it is otherwise. -/
def OpenFileAppend (fs : FS) (path : Bytes) : FS × Option GoError :=
  if path = [] then (fs, some (.pathError (str "open") path .ENOENT))
  else if path.contains 0 then (fs, some (.pathError (str "open") path .EINVAL))
  else
    match walkError fs (Clean path) with
    | some errno => (fs, some (.pathError (str "open") path errno))
    | none =>
      match fs.lookup (Clean path) with
      | some (.dir _) => (fs, some (.pathError (str "open") path .EISDIR))
      | some (.file _) => (fs, none)
      | none =>
        match fs.lookup (parentKey (Clean path)) with
        | some (.dir m) =>
          if ownerMayAdd m then (fs.set (Clean path) (.file []), none)
          else (fs, some (.pathError (str "open") path .EACCES))
        | some (.file _) => (fs, some (.pathError (str "open") path .ENOTDIR))
        | none => (fs, some (.pathError (str "open") path .ENOENT))

/-- How the process ends. -/
inductive Outcome where
  /-- The function `main` returned -/
  | finished
  /-- A call of `log.Fatal` or `log.Fatalf` ended the process with this message -/
  | fatal (message : Bytes)
  deriving DecidableEq, Repr

/-- The result of the command: how it ended, the filesystem, the events of the extraction. -/
structure MainRun where
  outcome : Outcome
  fs : FS
  trace : List Event

/-- The function `main` of main.go on the arguments `args` (`os.Args`). The lines written to
the log file are not added to its content. -/
def main (codec : Codec) (fuel : Nat) (fs : FS) (args : List Bytes) : Option MainRun :=
  match OpenFileAppend fs (str "bar-extract.log") with
  | (fs0, some e) => some ⟨.fatal (str "Error creating log file: " ++ e.Error), fs0, []⟩
  | (fs0, none) =>
    if args.length < 2 then
      some ⟨.fatal (str "Argument Exception: no target file provided"), fs0, []⟩
    else
      match ValidateFile fs0 (args.getD 1 []) with
      | some e => some ⟨.fatal e.Error, fs0, []⟩
      | none =>
        match ExtractRecursive codec fuel fs0 (args.getD 1 []) with
        | none => none
        | some r =>
          match r.err with
          | some e => some ⟨.fatal (str "Extraction failed: " ++ e.Error), r.fs, r.trace⟩
          | none => some ⟨.finished, r.fs, r.trace⟩

/-! ## A small container format for the examples

The examples need archives as bytes. In place of the real formats they use a format with the
same signatures: a zip archive is `PK\x03\x04` followed by its entries, each a kind byte
(0 file, 1 directory, 2 file whose `Open` fails, 3 file whose copy ends in a checksum error),
a name length, the name, a data length and the data; a gzip stream is `\x1f\x8b`, a name
length, the name and the data. As with the real formats, the directory is read when the
archive is opened and the data of an entry is read from the file when it is copied. -/

/-- The error `zip.ErrFormat`. -/
def ErrFormat : GoError := .msg (str "zip: not a valid zip file")

/-- The error `io.ErrUnexpectedEOF`. -/
def ErrUnexpectedEOF : GoError := .msg (str "unexpected EOF")

/-- The entries of an example archive: the records found from the offset `pos` on. -/
def exampleEntries : Nat → Nat → Bytes → Except GoError (List ZipEntry)
  | 0, _, _ => .error ErrFormat
  | _, _, [] => .ok []
  | fuel + 1, pos, kind :: nameLen :: rest =>
    match rest.drop nameLen.toNat with
    | [] => .error ErrFormat
    | dataLen :: rest2 =>
      if rest.length < nameLen.toNat ∨ rest2.length < dataLen.toNat ∨ 3 < kind.toNat then
        .error ErrFormat
      else
        match exampleEntries fuel (pos + 3 + nameLen.toNat + dataLen.toNat)
            (rest2.drop dataLen.toNat) with
        | .error e => .error e
        | .ok es =>
          .ok ({ name := rest.take nameLen.toNat
                 mode := if kind = 1 then ModeDir + 0o755 else 0o644
                 headerOffset := pos } :: es)
  | _, _, _ => .error ErrFormat

/-- The example `Open`: the kind byte and the name length in front of the entry are read
from the file as it is now. -/
def exampleOpenEntry (f : ZipEntry) (current : Bytes) : Option GoError :=
  match current.drop f.headerOffset with
  | kind :: _ :: _ =>
    if kind = 2 then some (.msg (str "zip: unsupported compression algorithm"))
    else if 3 < kind.toNat then some ErrFormat
    else none
  | _ => some (.msg (str "EOF"))

/-- The example copy: kind and lengths of the entry are those of the directory (read from
`opened`), its bytes are read from the file as it is now. -/
def exampleReadEntry (opened : Bytes) (f : ZipEntry) (current : Bytes) :
    Bytes × Option GoError :=
  match opened.drop f.headerOffset with
  | kind :: nameLen :: rest =>
    match rest.drop nameLen.toNat with
    | dataLen :: _ =>
      let data := (current.drop (f.headerOffset + 3 + nameLen.toNat)).take dataLen.toNat
      if data.length < dataLen.toNat then (data, some ErrUnexpectedEOF)
      else if kind = 3 then (data, some (.msg (str "zip: checksum error")))
      else (data, none)
    | [] => ([], some ErrFormat)
  | _ => ([], some ErrFormat)

/-- The decoders of the example format. The gzip reader holds the first 4096 bytes of the
file from the moment it is opened, as the buffer of `gzip.NewReader` does. -/
def exampleCodec : Codec where
  openZip content :=
    if content.take 4 = zipMagic then exampleEntries content.length 4 (content.drop 4)
    else .error ErrFormat
  openEntry _ f current := exampleOpenEntry f current
  readEntry opened f current := exampleReadEntry opened f current
  newGzipReader content :=
    match content with
    | a :: b :: nameLen :: rest =>
      if [a, b] = gzipMagic ∧ nameLen.toNat ≤ rest.length then
        .ok { name := rest.take nameLen.toNat, data := rest.drop nameLen.toNat,
              copyErr := none }
      else .error (.msg (str "gzip: invalid header"))
    | _ => .error ErrUnexpectedEOF
  readGzipInPlace content :=
    match content with
    | _ :: _ :: nameLen :: rest =>
      ((rest.drop nameLen.toNat).take (4093 - nameLen.toNat),
        if content.length ≤ 4096 then none else some ErrUnexpectedEOF)
    | _ => ([], some ErrUnexpectedEOF)

/-- An entry of an example archive, as bytes. -/
def exampleEntry (kind : UInt8) (name data : Bytes) : Bytes :=
  [kind, name.length.toUInt8] ++ name ++ [data.length.toUInt8] ++ data

/-- An example archive, as bytes. -/
def exampleZip (entries : List Bytes) : Bytes := zipMagic ++ entries.flatten

/-- An example gzip stream, as bytes. -/
def exampleGzip (name data : Bytes) : Bytes :=
  gzipMagic ++ [name.length.toUInt8] ++ name ++ data

/-- The archive `nested.appzip` of the test `TestExtractRecursive_ZipNested`. -/
def nestedAppzip : Bytes := exampleZip [exampleEntry 0 (str "file_in_nested.txt") []]

/-- The archive `outer.bar` of the test `TestExtractRecursive_ZipNested`. -/
def outerBar : Bytes :=
  exampleZip [exampleEntry 0 (str "file1.txt") (str "hello world"),
    exampleEntry 0 (str "nested.appzip") nestedAppzip]

/-- A filesystem holding one file in the working directory. -/
def oneFile (name content : Bytes) : FS := FS.empty.set name (.file content)

/-- An archive of three entries whose second entry, "b.txt", ends in a checksum error. -/
def zipOfBadSecond : Bytes :=
  exampleZip [exampleEntry 0 (str "a") (str "x"), exampleEntry 3 (str "b.txt") (str "xy"),
    exampleEntry 0 (str "c") (str "x")]

/-- An archive whose second entry, "m.zip", is an archive whose second entry, "bad", ends in a
checksum error. -/
def zipOfBadNested : Bytes :=
  exampleZip [exampleEntry 0 (str "a") (str "x"),
    exampleEntry 0 (str "m.zip")
      (exampleZip [exampleEntry 0 (str "ok") (str "1"), exampleEntry 3 (str "bad") (str "xy")]),
    exampleEntry 0 (str "c") (str "x")]

/-- A gzip stream with the embedded name "m.zip" whose data is an archive whose one entry,
"bad", cannot be opened. -/
def gzipOfBadZip : Bytes :=
  exampleGzip (str "m.zip") (exampleZip [exampleEntry 2 (str "bad") (str "xy")])

/-! ## Predicates of the statements -/

/-- The second filesystem is the first with directories added at missing paths. -/
def DirsAdded (fs fs1 : FS) : Prop :=
  ∀ k, fs1.lookup k = fs.lookup k ∨ (fs.lookup k = none ∧ ∃ m, fs1.lookup k = some (.dir m))

/-- From `fs` to `fs1` under the events `trace`, a regular file stays a regular file, and
keeps its content unless an event of the trace wrote it. -/
def Frame (fs fs1 : FS) (trace : List Event) : Prop :=
  (∀ k c, fs.lookup k = some (.file c) → (∀ ev ∈ trace, ev.writes k = false) →
    fs1.lookup k = some (.file c)) ∧
  (∀ k c, fs.lookup k = some (.file c) → ∃ c1, fs1.lookup k = some (.file c1))

/-- The rule two consecutive events obey: an `ExtractRecursive` call on a path comes right
after a file with a signature was written at that path, and after such a file is written the
next event is that call. Names play no part in it. -/
def RecursionRule (a b : Event) : Prop :=
  (∀ q, b = .extracting q → ∃ c, a = .wrote q c ∧ hasSignature c) ∧
  (∀ q c, a = .wrote q c → hasSignature c → b = .extracting q)

/-- A run did not stop right after it had written a file with a signature. -/
def EndsSettled (r : Run) : Prop :=
  ∀ q c, r.trace.getLast? = some (.wrote q c) → ¬ hasSignature c

/-- The first event, if there is one, is not a call of `ExtractRecursive`. -/
def StartsWithWrite (t : List Event) : Prop :=
  ∀ ev, t.head? = some ev → ∀ q, ev ≠ .extracting q

/-- Every run of `recur` on a path begins with the call on that path, obeys `RecursionRule`
and satisfies `EndsSettled`. -/
def BySignature (recur : FS → Bytes → Option Run) : Prop :=
  ∀ fs p r, recur fs p = some r →
    r.trace.head? = some (.extracting p) ∧ List.Chain' RecursionRule r.trace ∧ EndsSettled r

/-- The texts under which `extractZipRecursive` and `extractGzipRecursive` wrap the error of
a step of their own. -/
def levelTexts : List Bytes :=
  [str "failed to create destination directory", str "failed to create directory",
    str "failed to open file in zip", str "failed to create file", str "failed to copy file",
    str "failed to open gzip file", str "failed to create gzip reader",
    str "failed to create decompressed file", str "failed to decompress gzip"]

/-- An error of a step of the call on `p` itself, not of a call nested in it: the error of
`zip.OpenReader`, which is returned as it is, or a cause wrapped under one of `levelTexts`. -/
def OwnError (codec : Codec) (fs : FS) (p : Bytes) (e : GoError) : Prop :=
  codec.OpenReader fs p = .error e ∨ ∃ text cause, text ∈ levelTexts ∧ e = .wrap text cause

/-- The error `base` as the calls on the nested archives `chain` (the outermost first) hand
it up: each wraps it under "failed to recursively extract " and the path of its archive. -/
def wrapNested (chain : List Bytes) (base : GoError) : GoError :=
  chain.foldr (fun q e => .wrap (str "failed to recursively extract " ++ q) e) base

/-- The run `r` of `ExtractRecursive` on `p` fails inside the nested archives `chain` with
the error `base`. With no nested archive, `base` is an error of the call itself. Otherwise
the run ends in the call on the first nested archive `q`: a file the call on `p` has just
written into its destination directory, whose bytes have a signature; that call fails
inside the rest of the chain with `base`, and the call on `p` returns its error wrapped. -/
def FailsInside (codec : Codec) : List Bytes → Nat → FS → Bytes → Run → GoError → Prop
  | [], fuel, fs, p, r, base =>
    ExtractRecursive codec fuel fs p = some r ∧ r.err = some base ∧ OwnError codec fs p base
  | q :: rest, fuel, fs, p, r, base =>
    ExtractRecursive codec fuel fs p = some r ∧
    r.err = some (wrapNested (q :: rest) base) ∧
    ∃ n fs1 r1 c before, q = Join [removeAllExtensions p, n] ∧
      fs1.node q = some (.file c) ∧ hasSignature c ∧
      r.trace = before ++ .wrote q c :: r1.trace ∧ r.fs = r1.fs ∧
      FailsInside codec rest (fuel - 1) fs1 q r1 base

/-- What one element `e` of a path (non-empty, without slash) does to the buffer and to
`dotdot` in the loop of `path.Clean`. -/
def tokenStep (rooted : Bool) (e out : Bytes) (dotdot : Nat) : Bytes × Nat :=
  if e = [dot] then (out, dotdot)
  else if e = [dot, dot] then
    if out.length > dotdot then (out.take (backtrack out dotdot (out.length - 1)), dotdot)
    else if rooted = false then
      ((if out.length > 0 then out ++ [slash] else out) ++ [dot, dot],
        ((if out.length > 0 then out ++ [slash] else out) ++ [dot, dot]).length)
    else (out, dotdot)
  else
    ((if (rooted = true ∧ out.length ≠ 1) ∨ (rooted = false ∧ out.length ≠ 0)
      then out ++ [slash] else out) ++ e, dotdot)

/-- The loop of `path.Clean` with the fuel it needs. -/
def cleanFrom (rooted : Bool) (rest out : Bytes) (dotdot : Nat) : Option Bytes :=
  cleanLoop rooted (rest.length + 1) rest out dotdot

/-- The invariant of the buffer of `path.Clean`: in a rooted path the buffer begins with the
slash and `dotdot` stays 1; `dotdot` is never beyond the end of the buffer. -/
def RootKept (rooted : Bool) (out : Bytes) (dotdot : Nat) : Prop :=
  (rooted = true → dotdot = 1 ∧ out.head? = some slash) ∧ dotdot ≤ out.length

/-- The slash-separated elements of a path. -/
def elementsFrom : Bytes → Bytes → List Bytes
  | [], cur => [cur.reverse]
  | c :: t, cur => if c = slash then cur.reverse :: elementsFrom t [] else elementsFrom t (c :: cur)

/-- The slash-separated elements of a path, empty ones included. -/
def elements (path : Bytes) : List Bytes := elementsFrom path []

/-- How deep below the directory it starts in a walk along the elements ends, from the depth
`k`: empty elements and `.` stay, `..` goes up, any other element goes down; `none` when the
walk goes up from depth 0. -/
def depthAfter : List Bytes → Nat → Option Nat
  | [], k => some k
  | e :: es, k =>
    if e = [] ∨ e = [dot] then depthAfter es k
    else if e = [dot, dot] then
      match k with
      | 0 => none
      | j + 1 => depthAfter es j
    else depthAfter es (k + 1)

/-- The name never climbs above the directory it is joined to and ends below it. -/
def landsInside (name : Bytes) : Bool :=
  match depthAfter (elements name) 0 with
  | some k => decide (0 < k)
  | none => false

/-- The text of a stack of path elements, the last one first: `/e1/e2/.../ek` for the stack
`[ek, ..., e2, e1]`. -/
def stackText : List Bytes → Bytes
  | [] => []
  | top :: below => stackText below ++ slash :: top

/-! ## Lists -/

theorem slash_ne_dot : slash ≠ dot := by decide

theorem dropWhile_head {α : Type} (q : α → Bool) (l : List α) :
    l.dropWhile q = [] ∨ ∃ a t, l.dropWhile q = a :: t ∧ q a = false := by
  induction l with
  | nil => simp
  | cons a t ih =>
    by_cases h : q a
    · simpa [List.dropWhile_cons, h] using ih
    · right; exact ⟨a, t, by simp [List.dropWhile_cons, h], by simpa using h⟩

theorem dropWhile_length_le {α : Type} (q : α → Bool) (l : List α) :
    (l.dropWhile q).length ≤ l.length := by
  induction l with
  | nil => simp
  | cons a t ih =>
    by_cases h : q a
    · simp only [List.dropWhile_cons, h, if_true, List.length_cons]; omega
    · simp [List.dropWhile_cons, h]

theorem takeWhile_append_stop {α : Type} (q : α → Bool) (l1 l2 : List α) (a : α)
    (ha : q a = false) : (l1 ++ a :: l2).takeWhile q = l1.takeWhile q := by
  induction l1 with
  | nil => simp [List.takeWhile_cons, ha]
  | cons b t ih =>
    by_cases h : q b <;> simp [List.takeWhile_cons, h, ih]

theorem takeWhile_all {α : Type} (q : α → Bool) (l : List α) (h : ∀ a ∈ l, q a = true) :
    l.takeWhile q = l := by
  induction l with
  | nil => rfl
  | cons b t ih =>
    simp [List.takeWhile_cons, h b (by simp), ih (fun a ha => h a (by simp [ha]))]

theorem mem_takeWhile_imp {α : Type} (q : α → Bool) (l : List α) (a : α)
    (h : a ∈ l.takeWhile q) : q a = true := by
  induction l with
  | nil => simp at h
  | cons b t ih =>
    by_cases hb : q b
    · simp [List.takeWhile_cons, hb] at h
      rcases h with h | h
      · rw [h]; exact hb
      · exact ih h
    · simp [List.takeWhile_cons, hb] at h

/-! ## `path.Ext` and `removeAllExtensions` -/

theorem extScan_append (x rest acc : Bytes) (hx : ∀ b ∈ x, b ≠ slash ∧ b ≠ dot) :
    extScan (x ++ rest) acc = extScan rest (x.reverse ++ acc) := by
  induction x generalizing acc with
  | nil => simp
  | cons b t ih =>
    have hb := hx b (by simp)
    simp [extScan, hb.1, hb.2]
    rw [ih _ (fun c hc => hx c (by simp [hc]))]

/-- A path is its directory part (empty or ending in a slash) followed by its last element. -/
theorem split_lastElement (p : Bytes) :
    p = (p.reverse.dropWhile (fun b => b ≠ slash)).reverse ++ lastElement p := by
  unfold lastElement
  rw [← List.reverse_append, List.takeWhile_append_dropWhile, List.reverse_reverse]

theorem lastElement_no_slash (p : Bytes) : ∀ b ∈ lastElement p, b ≠ slash := by
  intro b hb
  unfold lastElement at hb
  rw [List.mem_reverse] at hb
  simpa using mem_takeWhile_imp _ _ _ hb

/-- The value of `path.Ext` on a directory part `pre` (given reversed, empty or beginning
with the slash) followed by a slash-free element `e`. -/
theorem Ext_element (preRev e : Bytes) (he : ∀ b ∈ e, b ≠ slash)
    (hpre : preRev = [] ∨ preRev.head? = some slash) :
    (dot ∉ e → Ext (preRev.reverse ++ e) = []) ∧
    (∀ e1 e2, e = e1 ++ dot :: e2 → dot ∉ e2 → Ext (preRev.reverse ++ e) = dot :: e2) := by
  have hend : ∀ acc, extScan preRev acc = [] := by
    intro acc
    rcases hpre with h | h
    · subst h; rfl
    · cases preRev with
      | nil => simp at h
      | cons c t =>
        simp at h
        simp [extScan, h]
  constructor
  · intro hd
    unfold Ext
    rw [List.reverse_append, List.reverse_reverse, extScan_append]
    · exact hend _
    · intro b hb
      rw [List.mem_reverse] at hb
      exact ⟨he b hb, fun hbd => hd (hbd ▸ hb)⟩
  · intro e1 e2 h hd
    subst h
    unfold Ext
    rw [List.reverse_append, List.reverse_reverse, List.reverse_append, List.reverse_cons,
      List.append_assoc, List.append_assoc, extScan_append]
    · simp [extScan, slash_ne_dot.symm]
    · intro b hb
      rw [List.mem_reverse] at hb
      exact ⟨he b (by simp [hb]), fun hbd => hd (hbd ▸ hb)⟩

theorem split_last_dot (e : Bytes) (h : dot ∈ e) :
    ∃ e1 e2, e = e1 ++ dot :: e2 ∧ dot ∉ e2 := by
  have hsplit := List.takeWhile_append_dropWhile (fun b => b ≠ dot) e.reverse
  rcases dropWhile_head (fun b => decide (b ≠ dot)) e.reverse with hnil | ⟨a, t, hcons, ha⟩
  · exfalso
    rw [hnil, List.append_nil] at hsplit
    have : dot ∈ e.reverse.takeWhile (fun b => decide (b ≠ dot)) := by
      rw [hsplit]; simpa using h
    simpa using mem_takeWhile_imp _ _ _ this
  · have had : a = dot := by simpa using ha
    subst had
    refine ⟨t.reverse, (e.reverse.takeWhile (fun b => decide (b ≠ dot))).reverse, ?_, ?_⟩
    · rw [hcons] at hsplit
      have := congrArg List.reverse hsplit
      simpa using this.symm
    · intro hmem
      rw [List.mem_reverse] at hmem
      simpa using mem_takeWhile_imp _ _ _ hmem

theorem TrimSuffix_append (a b : Bytes) : TrimSuffix (a ++ b) b = a := by
  unfold TrimSuffix
  have : b.isSuffixOf (a ++ b) = true := by
    rw [List.isSuffixOf_iff_suffix]; exact List.suffix_append a b
  simp [this]

/-- The loop of `removeAllExtensions` on a directory part followed by a slash-free element:
it ends within one test more than the element is long, on the element cut at its first dot. -/
theorem removeAllExtensionsLoop_element (fuel : Nat) (preRev e : Bytes)
    (he : ∀ b ∈ e, b ≠ slash) (hpre : preRev = [] ∨ preRev.head? = some slash)
    (hfuel : e.length < fuel) :
    removeAllExtensionsLoop fuel (preRev.reverse ++ e) =
      some (preRev.reverse ++ e.takeWhile (fun b => b ≠ dot)) := by
  induction fuel generalizing e with
  | zero => omega
  | succ n ih =>
    unfold removeAllExtensionsLoop
    by_cases hd : dot ∈ e
    · obtain ⟨e1, e2, hsplit, hnd⟩ := split_last_dot e hd
      have hext := (Ext_element preRev e he hpre).2 e1 e2 hsplit hnd
      rw [hext]
      simp only [reduceCtorEq, if_false]
      have htrim : TrimSuffix (preRev.reverse ++ e) (dot :: e2) = preRev.reverse ++ e1 := by
        rw [hsplit, ← List.append_assoc]; exact TrimSuffix_append _ _
      rw [htrim, ih e1 (fun b hb => he b (by simp [hsplit, hb]))
        (by rw [hsplit] at hfuel; simp at hfuel; omega)]
      rw [hsplit, takeWhile_append_stop _ _ _ _ (by simp)]
    · rw [(Ext_element preRev e he hpre).1 hd]
      simp only [if_true]
      rw [takeWhile_all _ e (fun a ha => by simp; rintro rfl; exact hd ha)]

theorem dirPart_head (p : Bytes) :
    p.reverse.dropWhile (fun b => b ≠ slash) = [] ∨
    (p.reverse.dropWhile (fun b => b ≠ slash)).head? = some slash := by
  rcases dropWhile_head (fun b => decide (b ≠ slash)) p.reverse with h | ⟨a, t, h, ha⟩
  · left; exact h
  · right; rw [h]; simpa using ha

theorem take_of_split (p pre e : Bytes) (h : p = pre ++ e) :
    p.take (p.length - e.length) = pre := by
  subst h
  simp

theorem mem_of_mem_takeWhile {α : Type} (q : α → Bool) (l : List α) (a : α)
    (h : a ∈ l.takeWhile q) : a ∈ l := by
  induction l with
  | nil => simp at h
  | cons b t ih =>
    by_cases hb : q b
    · simp [List.takeWhile_cons, hb] at h
      rcases h with h | h
      · simp [h]
      · simp [ih h]
    · simp [List.takeWhile_cons, hb] at h

theorem cutAtFirstDot_eq (p : Bytes) :
    cutAtFirstDot p = (p.reverse.dropWhile (fun b => b ≠ slash)).reverse ++
      (lastElement p).takeWhile (fun b => b ≠ dot) := by
  unfold cutAtFirstDot
  rw [take_of_split p _ _ (split_lastElement p)]

/-- The loop of `removeAllExtensions` ends within `len(filePath) + 1` tests of its
condition, on `filePath` cut at the first dot of its last element. -/
theorem removeAllExtensionsLoop_eq (p : Bytes) :
    removeAllExtensionsLoop (p.length + 1) p = some (cutAtFirstDot p) := by
  rw [cutAtFirstDot_eq]
  have h := split_lastElement p
  have hlen := congrArg List.length h
  simp only [List.length_append] at hlen
  have key := removeAllExtensionsLoop_element (p.length + 1) _ _ (lastElement_no_slash p)
    (dirPart_head p) (by omega)
  rwa [← h] at key

theorem removeAllExtensions_eq (p : Bytes) : removeAllExtensions p = cutAtFirstDot p := by
  unfold removeAllExtensions
  rw [removeAllExtensionsLoop_eq]

theorem Ext_removeAllExtensions (p : Bytes) : Ext (removeAllExtensions p) = [] := by
  rw [removeAllExtensions_eq, cutAtFirstDot_eq]
  refine (Ext_element _ _ ?_ (dirPart_head p)).1 ?_
  · intro b hb
    exact lastElement_no_slash p b (mem_of_mem_takeWhile _ _ _ hb)
  · intro hd
    simpa using mem_takeWhile_imp _ _ _ hd

theorem Ext_eq_nil_iff (p : Bytes) : Ext p = [] ↔ dot ∉ lastElement p := by
  have h := split_lastElement p
  constructor
  · intro hE hd
    obtain ⟨e1, e2, hs, hnd⟩ := split_last_dot _ hd
    have := (Ext_element _ _ (lastElement_no_slash p) (dirPart_head p)).2 e1 e2 hs hnd
    rw [← h, hE] at this
    simp at this
  · intro hd
    have := (Ext_element _ _ (lastElement_no_slash p) (dirPart_head p)).1 hd
    rwa [← h] at this

theorem removeAllExtensions_fixed (p : Bytes) (h : dot ∉ lastElement p) :
    removeAllExtensions p = p := by
  rw [removeAllExtensions_eq, cutAtFirstDot_eq,
    takeWhile_all _ _ (fun a ha => by simp; rintro rfl; exact h ha)]
  exact (split_lastElement p).symm

/-! ## `path.Clean` and `path.Join` -/

theorem takeWhile_token {α : Type} (q : α → Bool) (e rest : List α)
    (he : ∀ b ∈ e, q b = true) (hrest : rest = [] ∨ ∃ a t, rest = a :: t ∧ q a = false) :
    (e ++ rest).takeWhile q = e ∧ (e ++ rest).dropWhile q = rest := by
  induction e with
  | nil =>
    rcases hrest with h | ⟨a, t, h, ha⟩
    · subst h; simp
    · subst h; simp [List.takeWhile_cons, List.dropWhile_cons, ha]
  | cons b t ih =>
    have hb := he b (by simp)
    have := ih (fun c hc => he c (by simp [hc]))
    simp [List.takeWhile_cons, List.dropWhile_cons, hb, this.1, this.2]

theorem head_slash_cases (rest : Bytes) (h : rest = [] ∨ rest.head? = some slash) :
    rest = [] ∨ ∃ a t, rest = a :: t ∧ (fun b => decide (b ≠ slash)) a = false := by
  rcases h with h | h
  · left; exact h
  · right
    cases rest with
    | nil => simp at h
    | cons a t => exact ⟨a, t, rfl, by simpa using h⟩

/-- One iteration of the loop of `path.Clean` on a slash. -/
theorem cleanLoop_slash (rooted : Bool) (fuel : Nat) (t out : Bytes) (dd : Nat) :
    cleanLoop rooted (fuel + 1) (slash :: t) out dd = cleanLoop rooted fuel t out dd := by
  simp [cleanLoop]

/-- One iteration of the loop of `path.Clean` on an element. -/
theorem cleanLoop_token (rooted : Bool) (fuel : Nat) (e rest out : Bytes) (dd : Nat)
    (hne : e ≠ []) (he : ∀ b ∈ e, b ≠ slash) (hrest : rest = [] ∨ rest.head? = some slash) :
    cleanLoop rooted (fuel + 1) (e ++ rest) out dd =
      cleanLoop rooted fuel rest (tokenStep rooted e out dd).1 (tokenStep rooted e out dd).2 := by
  have htw := takeWhile_token (fun b => decide (b ≠ slash)) e rest
    (fun b hb => by simpa using he b hb) (head_slash_cases rest hrest)
  have hsd : slash ≠ dot := slash_ne_dot
  have hds : dot ≠ slash := fun h => slash_ne_dot h.symm
  cases e with
  | nil => exact absurd rfl hne
  | cons c t0 =>
    have hc : c ≠ slash := he c (by simp)
    rw [List.cons_append] at htw ⊢
    rw [cleanLoop]
    simp only [hc, if_false]
    by_cases hcd : c = dot
    · subst hcd
      cases t0 with
      | nil =>
        have h2 : rest = [] ∨ rest.head? = some slash := hrest
        simp [tokenStep, h2]
      | cons c2 t1 =>
        have hc2 : c2 ≠ slash := he c2 (by simp)
        by_cases hc2d : c2 = dot
        · subst hc2d
          cases t1 with
          | nil =>
            have h2 : rest = [] ∨ rest.head? = some slash := hrest
            simp [tokenStep, h2, hds]
            split
            · rfl
            · split <;> rfl
          | cons c3 t2 =>
            have hc3 : c3 ≠ slash := he c3 (by simp)
            rw [htw.1, htw.2]
            simp [tokenStep, hds, hc3]
        · rw [htw.1, htw.2]
          simp [tokenStep, hc2, hc2d]
    · rw [htw.1, htw.2]
      simp [tokenStep, hcd]

/-- A path that does not begin with a slash is its first element followed by the rest. -/
theorem first_token (rest : Bytes) (c : UInt8) (t : Bytes) (h : rest = c :: t)
    (hc : c ≠ slash) :
    ∃ e rest1, rest = e ++ rest1 ∧ e ≠ [] ∧ (∀ b ∈ e, b ≠ slash) ∧
      (rest1 = [] ∨ rest1.head? = some slash) ∧ rest1.length < rest.length := by
  refine ⟨rest.takeWhile (fun b => b ≠ slash), rest.dropWhile (fun b => b ≠ slash),
    (List.takeWhile_append_dropWhile _ _).symm, ?_, ?_, ?_, ?_⟩
  · subst h; simp [List.takeWhile_cons, hc]
  · intro b hb
    simpa using mem_takeWhile_imp _ _ _ hb
  · rcases dropWhile_head (fun b => decide (b ≠ slash)) rest with h1 | ⟨a, t1, h1, ha⟩
    · left; exact h1
    · right; rw [h1]; simpa using ha
  · subst h
    have h1 : (c :: t).dropWhile (fun b => decide (b ≠ slash)) =
        t.dropWhile (fun b => decide (b ≠ slash)) := by
      simp [List.dropWhile_cons, hc]
    have h2 := dropWhile_length_le (fun b => decide (b ≠ slash)) t
    rw [h1, List.length_cons]
    omega

/-- The loop of `path.Clean` gives the same result with any fuel above the length of what is
left to read. -/
theorem cleanLoop_eq_cleanFrom (rooted : Bool) (n : Nat) :
    ∀ rest : Bytes, rest.length ≤ n → ∀ fuel out dd, rest.length < fuel →
      cleanLoop rooted fuel rest out dd = cleanFrom rooted rest out dd := by
  induction n with
  | zero =>
    intro rest hn fuel out dd hf
    have : rest = [] := List.length_eq_zero.1 (by omega)
    subst this
    obtain ⟨f, rfl⟩ : ∃ f, fuel = f + 1 := ⟨fuel - 1, by simp at hf; omega⟩
    simp [cleanFrom, cleanLoop]
  | succ n ih =>
    intro rest hn fuel out dd hf
    obtain ⟨f, rfl⟩ : ∃ f, fuel = f + 1 := ⟨fuel - 1, by omega⟩
    cases hrest : rest with
    | nil => simp [cleanFrom, cleanLoop]
    | cons c t =>
      subst hrest
      simp only [List.length_cons] at hn hf
      by_cases hc : c = slash
      · subst hc
        unfold cleanFrom
        rw [cleanLoop_slash, List.length_cons, cleanLoop_slash,
          ih t (by omega) f out dd (by omega), ih t (by omega) _ out dd (by omega)]
      · obtain ⟨e, rest1, hsplit, hne, he, hr1, hlen⟩ := first_token (c :: t) c t rfl hc
        simp only [List.length_cons] at hlen
        unfold cleanFrom
        rw [hsplit, cleanLoop_token rooted f e rest1 out dd hne he hr1,
          ← hsplit, List.length_cons, hsplit,
          cleanLoop_token rooted _ e rest1 out dd hne he hr1,
          ih rest1 (by omega) f _ _ (by omega), ih rest1 (by omega) _ _ _ (by omega)]

theorem cleanFrom_nil (rooted : Bool) (out : Bytes) (dd : Nat) :
    cleanFrom rooted [] out dd = some out := by
  simp [cleanFrom, cleanLoop]

theorem cleanFrom_slash (rooted : Bool) (t out : Bytes) (dd : Nat) :
    cleanFrom rooted (slash :: t) out dd = cleanFrom rooted t out dd := by
  unfold cleanFrom
  rw [List.length_cons, cleanLoop_slash]

theorem cleanFrom_token (rooted : Bool) (e rest out : Bytes) (dd : Nat)
    (hne : e ≠ []) (he : ∀ b ∈ e, b ≠ slash) (hrest : rest = [] ∨ rest.head? = some slash) :
    cleanFrom rooted (e ++ rest) out dd =
      cleanFrom rooted rest (tokenStep rooted e out dd).1 (tokenStep rooted e out dd).2 := by
  unfold cleanFrom
  rw [cleanLoop_token rooted _ e rest out dd hne he hrest]
  have hlen : 0 < e.length := List.length_pos.2 hne
  exact cleanLoop_eq_cleanFrom rooted rest.length rest (le_refl _) _ _ _
    (by simp only [List.length_append]; omega)

theorem backtrack_ge (buf : Bytes) (dd w : Nat) (h : dd ≤ w) : dd ≤ backtrack buf dd w := by
  induction w with
  | zero => simpa [backtrack] using h
  | succ w ih =>
    unfold backtrack
    split
    · rename_i hc
      exact ih (by omega)
    · exact h

theorem head_take {α : Type} (l : List α) (k : Nat) (hk : 1 ≤ k) :
    (l.take k).head? = l.head? := by
  cases l with
  | nil => simp
  | cons a t =>
    obtain ⟨j, rfl⟩ : ∃ j, k = j + 1 := ⟨k - 1, by omega⟩
    simp

theorem head_append_of_head {α : Type} (l t : List α) (a : α) (h : l.head? = some a) :
    (l ++ t).head? = some a := by
  cases l with
  | nil => simp at h
  | cons b s => simpa using h

theorem backtrack_le (buf : Bytes) (dd w : Nat) : backtrack buf dd w ≤ w := by
  induction w with
  | zero => simp [backtrack]
  | succ w ih =>
    unfold backtrack
    split
    · omega
    · exact le_refl _

theorem tokenStep_rootKept (rooted : Bool) (e out : Bytes) (dd : Nat)
    (h : RootKept rooted out dd) :
    RootKept rooted (tokenStep rooted e out dd).1 (tokenStep rooted e out dd).2 := by
  obtain ⟨hroot, hbound⟩ := h
  unfold tokenStep
  split
  · exact ⟨hroot, hbound⟩
  · split
    · split
      · rename_i hlen
        have hge := backtrack_ge out dd (out.length - 1) (by omega)
        have hle := backtrack_le out dd (out.length - 1)
        refine ⟨fun hr => ?_, ?_⟩
        · obtain ⟨hdd, hhead⟩ := hroot hr
          refine ⟨hdd, ?_⟩
          simp only
          rw [head_take _ _ (by omega)]
          exact hhead
        · simp only [List.length_take]
          omega
      · split
        · rename_i hf
          refine ⟨fun hr => ?_, le_refl _⟩
          rw [hr] at hf; simp at hf
        · exact ⟨hroot, hbound⟩
    · refine ⟨fun hr => ?_, ?_⟩
      · obtain ⟨hdd, hhead⟩ := hroot hr
        refine ⟨hdd, ?_⟩
        simp only
        split
        · rw [List.append_assoc]; exact head_append_of_head _ _ _ hhead
        · exact head_append_of_head _ _ _ hhead
      · simp only
        split <;> simp only [List.length_append] <;> omega

/-- Reading `a` and then a slash leaves the loop of `path.Clean` in the state it ends in on
`a` alone. -/
theorem cleanFrom_split (rooted : Bool) (n : Nat) :
    ∀ a : Bytes, a.length ≤ n → ∀ out dd, RootKept rooted out dd →
      ∃ out1 dd1, cleanFrom rooted a out dd = some out1 ∧ RootKept rooted out1 dd1 ∧
        ∀ b, cleanFrom rooted (a ++ slash :: b) out dd =
          cleanFrom rooted (slash :: b) out1 dd1 := by
  induction n with
  | zero =>
    intro a hn out dd hk
    have : a = [] := List.length_eq_zero.1 (by omega)
    subst this
    exact ⟨out, dd, cleanFrom_nil _ _ _, hk, fun b => rfl⟩
  | succ n ih =>
    intro a hn out dd hk
    cases ha : a with
    | nil => exact ⟨out, dd, cleanFrom_nil _ _ _, hk, fun b => rfl⟩
    | cons c t =>
      subst ha
      simp only [List.length_cons] at hn
      by_cases hc : c = slash
      · subst hc
        obtain ⟨out1, dd1, h1, h2, h3⟩ := ih t (by omega) out dd hk
        refine ⟨out1, dd1, by rw [cleanFrom_slash]; exact h1, h2, fun b => ?_⟩
        rw [List.cons_append, cleanFrom_slash]
        exact h3 b
      · obtain ⟨e, rest1, hsplit, hne, he, hr1, hlen⟩ := first_token (c :: t) c t rfl hc
        simp only [List.length_cons] at hlen
        obtain ⟨out1, dd1, h1, h2, h3⟩ := ih rest1 (by omega) _ _
          (tokenStep_rootKept rooted e out dd hk)
        refine ⟨out1, dd1, ?_, h2, fun b => ?_⟩
        · rw [hsplit, cleanFrom_token rooted e rest1 out dd hne he hr1]; exact h1
        · rw [hsplit, List.append_assoc, cleanFrom_token rooted e (rest1 ++ slash :: b) out dd
            hne he ?_]
          · exact h3 b
          · rcases hr1 with h | h
            · subst h; right; rfl
            · right
              cases rest1 with
              | nil => simp at h
              | cons x y => simpa using h

theorem cleanRun_eq (path : Bytes) :
    cleanRun path =
      if path.head? = some slash then cleanFrom true path.tail [slash] 1
      else cleanFrom false path [] 0 := by
  unfold cleanRun
  split
  · exact cleanLoop_eq_cleanFrom true path.tail.length path.tail (le_refl _) _ _ _
      (by simp; omega)
  · rfl

/-- The loop of `path.Clean` ends within the fuel `Clean` hands it. -/
theorem cleanRun_isSome (path : Bytes) : (cleanRun path).isSome = true := by
  rw [cleanRun_eq]
  split
  · obtain ⟨out1, dd1, h1, _, _⟩ := cleanFrom_split true path.tail.length path.tail
      (le_refl _) [slash] 1 ⟨fun _ => ⟨rfl, rfl⟩, le_refl _⟩
    rw [h1]; rfl
  · obtain ⟨out1, dd1, h1, _, _⟩ := cleanFrom_split false path.length path
      (le_refl _) [] 0 ⟨fun h => by simp at h, le_refl _⟩
    rw [h1]; rfl

/-- Cleaning `d/n`: the loop reads `d` as it does on `d` alone and goes on with `/n`. -/
theorem cleanRun_join (d : Bytes) (hd : d ≠ []) :
    ∃ out1 dd1, cleanRun d = some out1 ∧
      RootKept (decide (d.head? = some slash)) out1 dd1 ∧
      ∀ n, cleanRun (d ++ slash :: n) =
        cleanFrom (decide (d.head? = some slash)) (slash :: n) out1 dd1 := by
  cases d with
  | nil => exact absurd rfl hd
  | cons c t =>
    by_cases hc : c = slash
    · subst hc
      obtain ⟨out1, dd1, h1, h2, h3⟩ := cleanFrom_split true t.length t (le_refl _) [slash] 1
        ⟨fun _ => ⟨rfl, rfl⟩, le_refl _⟩
      refine ⟨out1, dd1, ?_, by simpa using h2, fun n => ?_⟩
      · rw [cleanRun_eq]; simpa using h1
      · rw [cleanRun_eq]; simpa using h3 n
    · obtain ⟨out1, dd1, h1, h2, h3⟩ := cleanFrom_split false (c :: t).length (c :: t)
        (le_refl _) [] 0 ⟨fun h => by simp at h, le_refl _⟩
      refine ⟨out1, dd1, ?_, by simpa [hc] using h2, fun n => ?_⟩
      · rw [cleanRun_eq]; simpa [hc] using h1
      · rw [cleanRun_eq]; simpa [hc] using h3 n

theorem Join_pair (d n : Bytes) (hd : d ≠ []) : Join [d, n] = Clean (d ++ slash :: n) := by
  have hlen : 0 < d.length := List.length_pos.2 hd
  unfold Join
  rw [if_neg (by simp [hd])]
  simp [joinBuf, hd, hlen]

theorem Clean_of_run (path out : Bytes) (hp : path ≠ []) (h : cleanRun path = some out) :
    Clean path = if out = [] then [dot] else out := by
  unfold Clean
  rw [if_neg hp, h]

theorem lastElement_after_slash (x b : Bytes) (hb : ∀ c ∈ b, c ≠ slash) :
    lastElement (x ++ slash :: b) = b := by
  unfold lastElement
  rw [List.reverse_append, List.reverse_cons, List.append_assoc]
  rw [(takeWhile_token (fun c => decide (c ≠ slash)) b.reverse ([slash] ++ x.reverse)
    (fun c hc => by simpa using hb c (List.mem_reverse.1 hc))
    (Or.inr ⟨slash, x.reverse, rfl, by simp⟩)).1]
  exact List.reverse_reverse b

theorem lastElement_slashfree (b : Bytes) (hb : ∀ c ∈ b, c ≠ slash) : lastElement b = b := by
  unfold lastElement
  rw [takeWhile_all _ _ (fun c hc => by simpa using hb c (List.mem_reverse.1 hc))]
  exact List.reverse_reverse b

theorem tokenStep_real (rooted : Bool) (e out : Bytes) (dd : Nat) (h1 : e ≠ [dot])
    (h2 : e ≠ [dot, dot]) :
    tokenStep rooted e out dd =
      ((if (rooted = true ∧ out.length ≠ 1) ∨ (rooted = false ∧ out.length ≠ 0)
        then out ++ [slash] else out) ++ e, dd) := by
  unfold tokenStep
  rw [if_neg h1, if_neg h2]

/-- The last element of `path.Join(d, b)` is `b` when `b` is a plain name. -/
theorem Join_real_last (d b : Bytes) (hd : d ≠ []) (hb : b ≠ [])
    (hbs : ∀ c ∈ b, c ≠ slash) (hb1 : b ≠ [dot]) (hb2 : b ≠ [dot, dot]) :
    lastElement (Join [d, b]) = b := by
  obtain ⟨out1, dd1, _, hkept, hrun⟩ := cleanRun_join d hd
  have hfin : cleanRun (d ++ slash :: b) =
      some (tokenStep (decide (d.head? = some slash)) b out1 dd1).1 := by
    rw [hrun b, cleanFrom_slash]
    have := cleanFrom_token (decide (d.head? = some slash)) b [] out1 dd1 hb hbs (Or.inl rfl)
    rw [List.append_nil] at this
    rw [this, cleanFrom_nil]
  rw [Join_pair d b hd, Clean_of_run _ _ (by simp) hfin,
    tokenStep_real _ _ _ _ hb1 hb2]
  simp only
  rw [if_neg (by simp [hb])]
  split
  · rw [List.append_assoc]
    exact lastElement_after_slash _ _ hbs
  · rename_i hcond
    cases hr : decide (d.head? = some slash) with
    | true =>
      rw [hr] at hcond hkept
      obtain ⟨_, hhead⟩ := hkept.1 rfl
      have hlen : out1.length = 1 := by
        by_contra hne
        exact hcond (Or.inl ⟨rfl, hne⟩)
      have : out1 = [slash] := by
        cases out1 with
        | nil => simp at hlen
        | cons a t =>
          simp only [List.length_cons, add_left_eq_self, List.length_eq_zero] at hlen
          simp only [List.head?_cons, Option.some.injEq] at hhead
          rw [hlen, hhead]
      rw [this]
      exact lastElement_after_slash [] b hbs
    | false =>
      rw [hr] at hcond
      have hlen : out1.length = 0 := by
        by_contra hne
        exact hcond (Or.inr ⟨rfl, hne⟩)
      rw [List.length_eq_zero.1 hlen, List.nil_append]
      exact lastElement_slashfree b hbs

theorem Base_eq_lastElement (d : Bytes) (h : lastElement d ≠ []) : Base d = lastElement d := by
  have hd : d ≠ [] := by
    intro hd; subst hd; exact h rfl
  have hstrip : d.reverse.dropWhile (fun b => decide (b = slash)) = d.reverse := by
    cases hr : d.reverse with
    | nil => rfl
    | cons c t =>
      have hc : c ≠ slash := by
        intro hc
        apply h
        unfold lastElement
        rw [hr]
        simp [List.takeWhile_cons, hc]
      simp [List.dropWhile_cons, hc]
  unfold Base
  rw [if_neg hd]
  simp only [hstrip, List.reverse_reverse]
  rw [if_neg h]

/-- The fallback output of a gzip stream is its own destination: `path.Join(d, path.Base(d))`
has no extension when the last element of `d` is non-empty and has no dot. -/
theorem removeAllExtensions_fallback (d : Bytes) (hne : lastElement d ≠ [])
    (hdot : dot ∉ lastElement d) :
    removeAllExtensions (Join [d, Base d]) = Join [d, Base d] := by
  have hd : d ≠ [] := by
    intro hd; subst hd; exact hne rfl
  rw [Base_eq_lastElement d hne]
  apply removeAllExtensions_fixed
  rw [Join_real_last d (lastElement d) hd hne (lastElement_no_slash d)
    (fun h => hdot (by rw [h]; simp)) (fun h => hdot (by rw [h]; simp))]
  exact hdot

/-! ## Elements of a path -/

theorem elementsFrom_token (e rest cur : Bytes) (he : ∀ b ∈ e, b ≠ slash) :
    elementsFrom (e ++ rest) cur = elementsFrom rest (e.reverse ++ cur) := by
  induction e generalizing cur with
  | nil => rfl
  | cons c t ih =>
    have hc := he c (by simp)
    rw [List.cons_append, elementsFrom, if_neg hc, ih _ (fun b hb => he b (by simp [hb]))]
    simp

theorem elements_slash (t : Bytes) : elements (slash :: t) = [] :: elements t := by
  simp [elements, elementsFrom]

theorem elements_token_end (e : Bytes) (he : ∀ b ∈ e, b ≠ slash) : elements e = [e] := by
  have := elementsFrom_token e [] [] he
  rw [List.append_nil] at this
  simp [elements, this, elementsFrom]

theorem elements_token_slash (e t : Bytes) (he : ∀ b ∈ e, b ≠ slash) :
    elements (e ++ slash :: t) = e :: elements t := by
  unfold elements
  rw [elementsFrom_token e _ [] he]
  simp [elementsFrom]

theorem depthAfter_token (e rest : Bytes) (s : Nat) (hne : e ≠ [])
    (he : ∀ b ∈ e, b ≠ slash) (hrest : rest = [] ∨ rest.head? = some slash) :
    depthAfter (elements (e ++ rest)) s =
      if e = [dot] then depthAfter (elements rest) s
      else if e = [dot, dot] then
        match s with
        | 0 => none
        | j + 1 => depthAfter (elements rest) j
      else depthAfter (elements rest) (s + 1) := by
  have hnil : ∀ k, depthAfter (elements []) k = some k := by
    intro k; simp [elements, elementsFrom, depthAfter]
  cases rest with
  | nil =>
    rw [List.append_nil, elements_token_end e he]
    simp only [depthAfter, hne, false_or, hnil]
    split
    · rfl
    · split
      · cases s <;> rfl
      · rfl
  | cons x y =>
    have hx : x = slash := by
      rcases hrest with h | h
      · simp at h
      · simpa using h
    subst hx
    rw [elements_token_slash e y he, elements_slash]
    by_cases h1 : e = [dot]
    · simp [depthAfter, h1]
    · by_cases h2 : e = [dot, dot]
      · cases s <;> simp [depthAfter, h2]
      · simp [depthAfter, hne, h1, h2]

theorem get_append_right_succ (X e : Bytes) (j : Nat) :
    (X ++ slash :: e).get? (X.length + (j + 1)) = e.get? j := by
  induction X with
  | nil => simp
  | cons a t ih =>
    have : (a :: t).length + (j + 1) = (t.length + (j + 1)) + 1 := by
      simp only [List.length_cons]; omega
    rw [this, List.cons_append, List.get?_cons_succ]
    exact ih

theorem get_append_right_zero (X e : Bytes) :
    (X ++ slash :: e).get? X.length = some slash := by
  induction X with
  | nil => rfl
  | cons a t ih =>
    rw [List.cons_append, List.length_cons, List.get?_cons_succ]
    exact ih

theorem take_length_append {α : Type} (X Y : List α) : (X ++ Y).take X.length = X := by
  induction X with
  | nil => simp
  | cons a t ih => simp [ih]

/-- Backtracking in the buffer of `path.Clean` removes the last element and its slash. -/
theorem backtrack_pop (X e : Bytes) (dd : Nat) (he : ∀ b ∈ e, b ≠ slash)
    (hdd : dd ≤ X.length) :
    backtrack (X ++ slash :: e) dd ((X ++ slash :: e).length - 1) = X.length := by
  have key : ∀ j, j ≤ e.length →
      backtrack (X ++ slash :: e) dd (X.length + j) = X.length := by
    intro j
    induction j with
    | zero =>
      intro _
      rw [Nat.add_zero]
      cases hX : X.length with
      | zero => rfl
      | succ w =>
        unfold backtrack
        rw [if_neg]
        intro hc
        apply hc.2
        rw [← hX]
        exact get_append_right_zero X e
    | succ j ih =>
      intro hj
      have hstep : X.length + (j + 1) = (X.length + j) + 1 := by omega
      rw [hstep]
      unfold backtrack
      rw [if_pos]
      · exact ih (by omega)
      · refine ⟨by omega, ?_⟩
        rw [← hstep, get_append_right_succ]
        intro hget
        have hmem : slash ∈ e := List.get?_mem hget
        exact he slash hmem rfl
  have hlen : (X ++ slash :: e).length - 1 = X.length + e.length := by simp
  rw [hlen]
  exact key e.length (le_refl _)

theorem stackText_head (stack : List Bytes) (h : stack ≠ []) :
    ∃ t, stackText stack = slash :: t := by
  induction stack with
  | nil => exact absurd rfl h
  | cons top below ih =>
    cases below with
    | nil => exact ⟨top, rfl⟩
    | cons b bs =>
      obtain ⟨t, ht⟩ := ih (by simp)
      refine ⟨t ++ slash :: top, ?_⟩
      show stackText (b :: bs) ++ slash :: top = _
      rw [ht]
      rfl

/-- Reading a name from a buffer that holds the directory `d` and a stack of elements below
it: if the name never climbs above `d`, the buffer ends as `d` and a stack as deep as the walk
ends. -/
theorem cleanFrom_stack (rooted : Bool) (d : Bytes) (hd : d ≠ [])
    (hroot : rooted = true → d.length ≠ 1) (m : Nat) :
    ∀ rest : Bytes, rest.length ≤ m → ∀ (stack : List Bytes) (dd k : Nat),
      (∀ e ∈ stack, ∀ b ∈ e, b ≠ slash) → dd ≤ d.length →
      depthAfter (elements rest) stack.length = some k →
      ∃ stack1 : List Bytes, stack1.length = k ∧
        cleanFrom rooted rest (d ++ stackText stack) dd = some (d ++ stackText stack1) := by
  induction m with
  | zero =>
    intro rest hn stack dd k _ _ hdepth
    have : rest = [] := List.length_eq_zero.1 (by omega)
    subst this
    simp only [elements, elementsFrom, depthAfter, List.reverse_nil, true_or, if_true,
      Option.some.injEq] at hdepth
    exact ⟨stack, hdepth, cleanFrom_nil _ _ _⟩
  | succ m ih =>
    intro rest hn stack dd k hstack hdd hdepth
    cases hrest : rest with
    | nil =>
      subst hrest
      simp only [elements, elementsFrom, depthAfter, List.reverse_nil, true_or, if_true,
        Option.some.injEq] at hdepth
      exact ⟨stack, hdepth, cleanFrom_nil _ _ _⟩
    | cons c t =>
      subst hrest
      simp only [List.length_cons] at hn
      by_cases hc : c = slash
      · subst hc
        rw [elements_slash] at hdepth
        simp only [depthAfter, true_or, if_true] at hdepth
        obtain ⟨stack1, h1, h2⟩ := ih t (by omega) stack dd k hstack hdd hdepth
        exact ⟨stack1, h1, by rw [cleanFrom_slash]; exact h2⟩
      · obtain ⟨e, rest1, hsplit, hne, he, hr1, hlen⟩ := first_token (c :: t) c t rfl hc
        simp only [List.length_cons] at hlen
        rw [hsplit] at hdepth ⊢
        rw [depthAfter_token e rest1 _ hne he hr1] at hdepth
        rw [cleanFrom_token rooted e rest1 _ dd hne he hr1]
        have hdlen : 0 < d.length := List.length_pos.2 hd
        by_cases hdot : e = [dot]
        · rw [if_pos hdot] at hdepth
          have hstep : tokenStep rooted e (d ++ stackText stack) dd =
              (d ++ stackText stack, dd) := by
            unfold tokenStep; rw [if_pos hdot]
          rw [hstep]
          exact ih rest1 (by omega) stack dd k hstack hdd hdepth
        · rw [if_neg hdot] at hdepth
          by_cases hdd2 : e = [dot, dot]
          · rw [if_pos hdd2] at hdepth
            cases stack with
            | nil => simp at hdepth
            | cons top below =>
              simp only [List.length_cons] at hdepth
              have htop : ∀ b ∈ top, b ≠ slash := hstack top (by simp)
              have hpop := backtrack_pop (d ++ stackText below) top dd htop
                (by simp only [List.length_append]; omega)
              have hstep : tokenStep rooted e (d ++ stackText (top :: below)) dd =
                  (d ++ stackText below, dd) := by
                unfold tokenStep
                rw [if_neg hdot, if_pos hdd2, if_pos (by
                  simp only [stackText, List.length_append, List.length_cons]; omega)]
                have hassoc : d ++ stackText (top :: below) =
                    (d ++ stackText below) ++ slash :: top := by
                  simp [stackText]
                rw [hassoc, hpop, take_length_append]
              rw [hstep]
              exact ih rest1 (by omega) below dd k
                (fun e1 he1 => hstack e1 (by simp [he1])) hdd hdepth
          · rw [if_neg hdd2] at hdepth
            have hcond : (rooted = true ∧ (d ++ stackText stack).length ≠ 1) ∨
                (rooted = false ∧ (d ++ stackText stack).length ≠ 0) := by
              cases rooted with
              | true =>
                refine Or.inl ⟨rfl, ?_⟩
                have := hroot rfl
                cases stack with
                | nil => simpa [stackText] using this
                | cons top below =>
                  simp only [stackText, List.length_append, List.length_cons]
                  omega
              | false =>
                refine Or.inr ⟨rfl, ?_⟩
                simp only [List.length_append]
                omega
            have hstep : tokenStep rooted e (d ++ stackText stack) dd =
                (d ++ stackText (e :: stack), dd) := by
              rw [tokenStep_real rooted e _ dd hdot hdd2, if_pos hcond]
              simp [stackText]
            rw [hstep]
            exact ih rest1 (by omega) (e :: stack) dd k
              (fun e1 he1 => by
                rcases List.mem_cons.1 he1 with h | h
                · rw [h]; exact he
                · exact hstack e1 h)
              hdd (by simpa using hdepth)

/-- The path `path.Join(d, n)` lies under `d` when `d` is a cleaned path other than the root
and the working directory and the name `n` never climbs above `d` and ends below it. -/
theorem Join_inside (d n : Bytes) (hclean : Clean d = d) (hroot : d ≠ [slash])
    (hcwd : d ≠ [dot]) (hin : landsInside n = true) :
    ∃ t, Join [d, n] = d ++ slash :: t := by
  have hd : d ≠ [] := by
    intro h; subst h; simp [Clean] at hclean
  obtain ⟨out1, dd1, h1, hkept, hrun⟩ := cleanRun_join d hd
  have hout : out1 = d := by
    have := Clean_of_run d out1 hd h1
    rw [hclean] at this
    split at this
    · exact absurd this hcwd
    · exact this.symm
  subst hout
  obtain ⟨k, hk, hpos⟩ : ∃ k, depthAfter (elements n) 0 = some k ∧ 0 < k := by
    unfold landsInside at hin
    split at hin
    · rename_i k hk
      exact ⟨k, hk, by simpa using hin⟩
    · simp at hin
  obtain ⟨stack1, hlen, hfin⟩ := cleanFrom_stack (decide (out1.head? = some slash)) out1 hd
    (by intro hr hlen
        simp only [decide_eq_true_eq] at hr
        apply hroot
        cases out1 with
        | nil => simp at hlen
        | cons a t =>
          simp only [List.length_cons, add_left_eq_self, List.length_eq_zero] at hlen
          simp only [List.head?_cons, Option.some.injEq] at hr
          rw [hlen, hr])
    (slash :: n).length (slash :: n) (le_refl _) [] dd1 k (by simp) hkept.2
    (by rw [elements_slash]; simpa [depthAfter] using hk)
  have hne : stack1 ≠ [] := by
    intro h; rw [h] at hlen; simp at hlen; omega
  obtain ⟨t, ht⟩ := stackText_head stack1 hne
  refine ⟨t, ?_⟩
  simp only [stackText, List.append_nil] at hfin
  rw [Join_pair out1 n hd, Clean_of_run _ _ (by simp) (by rw [hrun n]; exact hfin), ht]
  rw [if_neg (by simp)]

/-! ## The last element of a cleaned path -/

/-- A path is its directory part, empty or ended by a slash, followed by its last element. -/
theorem split_dir_last (p : Bytes) :
    p = lastElement p ∨ ∃ x, p = x ++ slash :: lastElement p := by
  have h := split_lastElement p
  rcases dirPart_head p with hd | hd
  · left
    rw [hd] at h
    simpa using h
  · right
    cases hr : p.reverse.dropWhile (fun b => b ≠ slash) with
    | nil => rw [hr] at hd; simp at hd
    | cons a t =>
      rw [hr] at hd h
      simp only [List.head?_cons, Option.some.injEq] at hd
      subst hd
      refine ⟨t.reverse, ?_⟩
      rw [List.reverse_cons, List.append_assoc] at h
      exact h

theorem Clean_single (b : Bytes) (hb : b ≠ []) (hbs : ∀ c ∈ b, c ≠ slash) (hb1 : b ≠ [dot])
    (hb2 : b ≠ [dot, dot]) : Clean b = b := by
  have hhead : b.head? ≠ some slash := by
    cases b with
    | nil => simp
    | cons a t =>
      simp only [List.head?_cons, ne_eq, Option.some.injEq]
      exact hbs a (by simp)
  have hrun : cleanRun b = some b := by
    rw [cleanRun_eq, if_neg hhead]
    have := cleanFrom_token false b [] [] 0 hb hbs (Or.inl rfl)
    rw [List.append_nil] at this
    rw [this, cleanFrom_nil, tokenStep_real _ _ _ _ hb1 hb2]
    simp
  rw [Clean_of_run b b hb hrun, if_neg hb]

theorem Clean_rooted_single (b : Bytes) (hb : b ≠ []) (hbs : ∀ c ∈ b, c ≠ slash)
    (hb1 : b ≠ [dot]) (hb2 : b ≠ [dot, dot]) : Clean (slash :: b) = slash :: b := by
  have hrun : cleanRun (slash :: b) = some (slash :: b) := by
    rw [cleanRun_eq, if_pos (by simp)]
    have := cleanFrom_token true b [] [slash] 1 hb hbs (Or.inl rfl)
    rw [List.append_nil] at this
    simp only [List.tail_cons]
    rw [this, cleanFrom_nil, tokenStep_real _ _ _ _ hb1 hb2]
    simp
  rw [Clean_of_run _ _ (by simp) hrun, if_neg (by simp)]

/-- Cleaning keeps the last element of a path when that is a plain name. -/
theorem Clean_real_last (x : Bytes) (h0 : lastElement x ≠ []) (h1 : lastElement x ≠ [dot])
    (h2 : lastElement x ≠ [dot, dot]) : lastElement (Clean x) = lastElement x := by
  have hbs := lastElement_no_slash x
  rcases split_dir_last x with hx | ⟨y, hx⟩
  · rw [hx, Clean_single _ h0 hbs h1 h2]
  · cases y with
    | nil =>
      rw [List.nil_append] at hx
      rw [hx, Clean_rooted_single _ h0 hbs h1 h2]
    | cons a t =>
      have := Join_real_last (a :: t) (lastElement x) (by simp) h0 hbs h1 h2
      rw [Join_pair _ _ (by simp), ← hx] at this
      exact this

theorem lastElement_removeAllExtensions (p : Bytes) :
    lastElement (removeAllExtensions p) = (lastElement p).takeWhile (fun b => b ≠ dot) := by
  have htw : ∀ c ∈ (lastElement p).takeWhile (fun b => b ≠ dot), c ≠ slash :=
    fun c hc => lastElement_no_slash p c (mem_of_mem_takeWhile _ _ _ hc)
  rw [removeAllExtensions_eq, cutAtFirstDot_eq]
  rcases dirPart_head p with hd | hd
  · rw [hd]
    simp only [List.reverse_nil, List.nil_append]
    exact lastElement_slashfree _ htw
  · cases hr : p.reverse.dropWhile (fun b => b ≠ slash) with
    | nil => rw [hr] at hd; simp at hd
    | cons a t =>
      rw [hr] at hd
      simp only [List.head?_cons, Option.some.injEq] at hd
      subst hd
      rw [List.reverse_cons, List.append_assoc]
      exact lastElement_after_slash _ _ htw

theorem takeWhile_ne_nil_head (l : Bytes) (h : l.takeWhile (fun b => b ≠ dot) ≠ []) :
    l.head? ≠ some dot ∧ l ≠ [] := by
  cases l with
  | nil => simp at h
  | cons a t =>
    by_cases ha : a = dot
    · subst ha
      simp [List.takeWhile_cons] at h
    · simp [ha]

/-- The fallback output of a gzip stream is never the file of the stream: for an archive
path with an extension, `path.Join(d, path.Base(d))` and the archive path are different
files, since the last element of the first has no dot. -/
theorem fallback_not_archive (q : Bytes) (hlast : lastElement (removeAllExtensions q) ≠ [])
    (hdot : dot ∈ lastElement q) :
    Clean (Join [removeAllExtensions q, Base (removeAllExtensions q)]) ≠ Clean q := by
  have hd : removeAllExtensions q ≠ [] := by
    intro h; rw [h] at hlast; exact hlast rfl
  have hnodot : dot ∉ lastElement (removeAllExtensions q) :=
    (Ext_eq_nil_iff _).1 (Ext_removeAllExtensions q)
  have ha1 : lastElement (removeAllExtensions q) ≠ [dot] :=
    fun h => hnodot (by rw [h]; simp)
  have ha2 : lastElement (removeAllExtensions q) ≠ [dot, dot] :=
    fun h => hnodot (by rw [h]; simp)
  have hjoin := Join_real_last (removeAllExtensions q) (lastElement (removeAllExtensions q)) hd
    hlast (lastElement_no_slash _) ha1 ha2
  have hout : lastElement (Clean (Join [removeAllExtensions q,
      Base (removeAllExtensions q)])) = lastElement (removeAllExtensions q) := by
    rw [Base_eq_lastElement _ hlast]
    rw [Clean_real_last _ (by rw [hjoin]; exact hlast) (by rw [hjoin]; exact ha1)
      (by rw [hjoin]; exact ha2), hjoin]
  have htw := hlast
  rw [lastElement_removeAllExtensions] at htw
  obtain ⟨hhead, hne⟩ := takeWhile_ne_nil_head _ htw
  have hq1 : lastElement q ≠ [dot] := by
    intro h; rw [h] at hhead; simp at hhead
  have hq2 : lastElement q ≠ [dot, dot] := by
    intro h; rw [h] at hhead; simp at hhead
  intro heq
  have := congrArg lastElement heq
  rw [hout, Clean_real_last q hne hq1 hq2] at this
  rw [this] at hnodot
  exact hnodot hdot

/-! ## Format detection -/

theorem isZipFile_file (fs : FS) (p content : Bytes) (h : fs.node p = some (.file content)) :
    isZipFile fs p = true ↔ content.take 4 = zipMagic := by
  rcases content with _ | ⟨a, _ | ⟨b, _ | ⟨c, _ | ⟨d, t⟩⟩⟩⟩ <;>
    simp [isZipFile, readHeader, h, zipMagic, and_assoc]

theorem isGzipFile_file (fs : FS) (p content : Bytes) (h : fs.node p = some (.file content)) :
    isGzipFile fs p = true ↔ content.take 2 = gzipMagic := by
  rcases content with _ | ⟨a, _ | ⟨b, t⟩⟩ <;>
    simp [isGzipFile, readHeader, h, gzipMagic]

theorem isZipFile_not_file (fs : FS) (p : Bytes) (h : ∀ c, fs.node p ≠ some (.file c)) :
    isZipFile fs p = false := by
  unfold isZipFile readHeader
  cases hn : fs.node p with
  | none => rfl
  | some n => cases n with
    | file c => exact absurd hn (h c)
    | dir m => rfl

theorem isGzipFile_not_file (fs : FS) (p : Bytes) (h : ∀ c, fs.node p ≠ some (.file c)) :
    isGzipFile fs p = false := by
  unfold isGzipFile readHeader
  cases hn : fs.node p with
  | none => rfl
  | some n => cases n with
    | file c => exact absurd hn (h c)
    | dir m => rfl

theorem IsZipOrGzip_file (fs : FS) (p content : Bytes) (h : fs.node p = some (.file content)) :
    IsZipOrGzip fs p = true ↔ content.take 4 = zipMagic ∨ content.take 2 = gzipMagic := by
  simp [IsZipOrGzip, isZipFile_file fs p content h, isGzipFile_file fs p content h]

theorem take_eq_length_le (c m : Bytes) (n : Nat) (h : c.take n = m) (hm : m.length = n) :
    n ≤ c.length := by
  subst h
  simp at hm
  exact hm

/-! ## Filesystem -/

theorem lookup_set_other (fs : FS) (k q : Bytes) (n : Node) (h : q ≠ k) :
    (fs.set k n).lookup q = fs.lookup q := by
  simp [FS.lookup, FS.set, h]

theorem lookup_set_self (fs : FS) (k : Bytes) (n : Node) (h : alwaysDir k = false) :
    (fs.set k n).lookup k = some n := by
  simp [FS.lookup, FS.set, h]

theorem lookup_none_not_alwaysDir (fs : FS) (k : Bytes) (h : ∀ m, fs.lookup k ≠ some (.dir m)) :
    alwaysDir k = false := by
  cases hk : alwaysDir k with
  | false => rfl
  | true => exact absurd (by simp [FS.lookup, hk]) (h 0o755)

/-- What a successful `os.Create` does. -/
theorem Create_ok (fs fs1 : FS) (path : Bytes) (h : Create fs path = (fs1, none)) :
    path ≠ [] ∧ fs1 = fs.set (Clean path) (.file []) ∧ alwaysDir (Clean path) = false ∧
    (∀ m, fs.lookup (Clean path) ≠ some (.dir m)) := by
  unfold Create at h
  split at h
  · simp at h
  · rename_i hne
    split at h
    · simp at h
    · split at h
      · simp at h
      · split at h
        · simp at h
        · rename_i c hc
          simp only [Prod.mk.injEq, and_true] at h
          refine ⟨hne, h.symm, lookup_none_not_alwaysDir fs _ ?_, ?_⟩ <;> simp [hc]
        · rename_i hc
          split at h
          · split at h
            · simp only [Prod.mk.injEq, and_true] at h
              refine ⟨hne, h.symm, lookup_none_not_alwaysDir fs _ ?_, ?_⟩ <;> simp [hc]
            · simp at h
          · simp at h
          · simp at h

/-- A failed `os.Create` changes nothing and returns a path error that names the path. -/
theorem Create_err (fs fs1 : FS) (path : Bytes) (e : GoError)
    (h : Create fs path = (fs1, some e)) :
    fs1 = fs ∧ ∃ errno, e = .pathError (str "open") path errno := by
  unfold Create at h
  split at h
  · simp only [Prod.mk.injEq, Option.some.injEq] at h
    exact ⟨h.1.symm, _, h.2.symm⟩
  · split at h
    · simp only [Prod.mk.injEq, Option.some.injEq] at h
      exact ⟨h.1.symm, _, h.2.symm⟩
    · split at h
      · simp only [Prod.mk.injEq, Option.some.injEq] at h
        exact ⟨h.1.symm, _, h.2.symm⟩
      · split at h
        · simp only [Prod.mk.injEq, Option.some.injEq] at h
          exact ⟨h.1.symm, _, h.2.symm⟩
        · simp at h
        · split at h
          · split at h
            · simp at h
            · simp only [Prod.mk.injEq, Option.some.injEq] at h
              exact ⟨h.1.symm, _, h.2.symm⟩
          · simp only [Prod.mk.injEq, Option.some.injEq] at h
            exact ⟨h.1.symm, _, h.2.symm⟩
          · simp only [Prod.mk.injEq, Option.some.injEq] at h
            exact ⟨h.1.symm, _, h.2.symm⟩

/-- After `os.Create` and `io.Copy` the file holds the bytes delivered. -/
theorem node_writeFile (fs fs1 : FS) (path data : Bytes) (h : Create fs path = (fs1, none)) :
    (writeFile fs1 path data).node path = some (.file data) := by
  obtain ⟨hne, _, hk, _⟩ := Create_ok fs fs1 path h
  simp [FS.node, hne, writeFile, lookup_set_self _ _ _ hk]

theorem lookup_writeFile (fs fs1 : FS) (path data k : Bytes) (h : Create fs path = (fs1, none)) :
    (writeFile fs1 path data).lookup k =
      if k = Clean path then some (.file data) else fs.lookup k := by
  obtain ⟨_, hfs, hk, _⟩ := Create_ok fs fs1 path h
  subst hfs
  by_cases hkk : k = Clean path
  · subst hkk
    simp [writeFile, lookup_set_self _ _ _ hk]
  · simp [writeFile, lookup_set_other _ _ _ _ hkk, hkk]

theorem dirsAdded_refl (fs : FS) : DirsAdded fs fs := fun _ => Or.inl rfl

theorem dirsAdded_trans {fs fs1 fs2 : FS} (h1 : DirsAdded fs fs1) (h2 : DirsAdded fs1 fs2) :
    DirsAdded fs fs2 := by
  intro k
  rcases h1 k with a | ⟨a, m, b⟩ <;> rcases h2 k with c | ⟨c, m2, d⟩
  · left; rw [c, a]
  · right; exact ⟨by rw [← a]; exact c, m2, d⟩
  · right; exact ⟨a, m, by rw [c, b]⟩
  · rw [b] at c; simp at c

theorem Mkdir_dirsAdded (fs : FS) (path : Bytes) (perm : Nat) :
    DirsAdded fs (Mkdir fs path perm).1 := by
  unfold Mkdir
  split
  · exact dirsAdded_refl fs
  · split
    · exact dirsAdded_refl fs
    · split
      · exact dirsAdded_refl fs
      · split
        · exact dirsAdded_refl fs
        · rename_i hc
          split
          · split
            · intro k
              by_cases hk : k = Clean path
              · subst hk
                right
                refine ⟨hc, perm, ?_⟩
                exact lookup_set_self _ _ _ (lookup_none_not_alwaysDir fs _ (by simp [hc]))
              · left; exact lookup_set_other _ _ _ _ hk
            · exact dirsAdded_refl fs
          · exact dirsAdded_refl fs
          · exact dirsAdded_refl fs

theorem MkdirAllLoop_dirsAdded (fuel : Nat) (fs : FS) (path : Bytes) (perm : Nat)
    (r : FS × Option GoError) (h : MkdirAllLoop fuel fs path perm = some r) :
    DirsAdded fs r.1 := by
  induction fuel generalizing fs path r with
  | zero => simp [MkdirAllLoop] at h
  | succ n ih =>
    unfold MkdirAllLoop at h
    split at h
    · simp only [Option.some.injEq] at h; subst h; exact dirsAdded_refl fs
    · simp only [Option.some.injEq] at h; subst h; exact dirsAdded_refl fs
    · simp only at h
      split at h
      · simp at h
      · rename_i fs1 e hp
        simp only [Option.some.injEq] at h; subst h
        split at hp
        · exact ih _ _ _ hp
        · simp at hp
      · rename_i fs1 hp
        have h1 : DirsAdded fs fs1 := by
          split at hp
          · exact ih _ _ _ hp
          · simp only [Option.some.injEq, Prod.mk.injEq, and_true] at hp
            subst hp; exact dirsAdded_refl fs
        have h2 := Mkdir_dirsAdded fs1 path perm
        split at h
        · rename_i fs2 hm
          simp only [Option.some.injEq] at h; subst h
          rw [hm] at h2; exact dirsAdded_trans h1 h2
        · rename_i fs2 e hm
          rw [hm] at h2
          split at h <;> (simp only [Option.some.injEq] at h; subst h; exact dirsAdded_trans h1 h2)

/-- The recursion of `os.MkdirAll` ends within `len(path) + 1` calls. -/
theorem MkdirAllLoop_isSome (fuel : Nat) (fs : FS) (path : Bytes) (perm : Nat)
    (h : path.length < fuel) : (MkdirAllLoop fuel fs path perm).isSome = true := by
  induction fuel generalizing fs path with
  | zero => omega
  | succ n ih =>
    unfold MkdirAllLoop
    split
    · rfl
    · rfl
    · simp only
      have hj : ((path.take ((path.reverse.dropWhile (fun b => b = slash)).length)).reverse.dropWhile
          (fun b => b ≠ slash)).length ≤ path.length := by
        refine le_trans (dropWhile_length_le _ _) ?_
        rw [List.length_reverse, List.length_take]
        omega
      split
      · rename_i hp
        split at hp
        · have := ih fs (path.take (((path.take ((path.reverse.dropWhile
            (fun b => b = slash)).length)).reverse.dropWhile (fun b => b ≠ slash)).length - 1))
            (by rw [List.length_take]; omega)
          rw [hp] at this; simp at this
        · simp at hp
      · rfl
      · split
        · rfl
        · split <;> rfl

theorem MkdirAll_dirsAdded (fs : FS) (path : Bytes) (perm : Nat) :
    DirsAdded fs (MkdirAll fs path perm).1 := by
  unfold MkdirAll
  split
  · rename_i r hr
    exact MkdirAllLoop_dirsAdded _ _ _ _ _ hr
  · exact dirsAdded_refl fs

/-- The call of `os.MkdirAll` on a path that names a regular file fails and changes nothing. -/
theorem MkdirAll_on_file (fs : FS) (path content : Bytes) (perm : Nat)
    (h : fs.node path = some (.file content)) :
    MkdirAll fs path perm = (fs, some (.pathError (str "mkdir") path .ENOTDIR)) := by
  simp [MkdirAll, MkdirAllLoop, h]

/-- What a read of the open archive finds is the content of the regular file its path names. -/
theorem archiveContent_of_node (fs : FS) (p content : Bytes)
    (h : fs.node p = some (.file content)) : archiveContent fs p = content := by
  simp [archiveContent, h]

/-! ## What a run leaves untouched -/

theorem frame_copyFailed {fs fs1 : FS} {path : Bytes} (data : Bytes)
    (h : Create fs path = (fs1, none)) :
    Frame fs (writeFile fs1 path data) [.copyFailed path data] := by
  constructor
  · intro k c hk hev
    have hne : k ≠ Clean path := by
      intro hkk
      have := hev (.copyFailed path data) (by simp)
      simp [Event.writes, hkk] at this
    rw [lookup_writeFile fs fs1 path data k h, if_neg hne]; exact hk
  · intro k c hk
    rw [lookup_writeFile fs fs1 path data k h]
    by_cases hkk : k = Clean path
    · exact ⟨data, by simp [hkk]⟩
    · exact ⟨c, by simp [hkk, hk]⟩

/-- The shapes of a result of `extractNested`. -/
theorem extractNested_cases (recur : FS → Bytes → Option Run) (fs : FS) (destPath data : Bytes)
    (r : Run) (h : extractNested recur fs destPath data = some r) :
    (IsZipOrGzip fs destPath = false ∧ r = ⟨none, fs, [.wrote destPath data]⟩) ∨
    (IsZipOrGzip fs destPath = true ∧ ∃ r1, recur fs destPath = some r1 ∧
      r.fs = r1.fs ∧ r.trace = .wrote destPath data :: r1.trace ∧
      ((r1.err = none ∧ r.err = none) ∨
        ∃ e, r1.err = some e ∧
          r.err = some (.wrap (str "failed to recursively extract " ++ destPath) e))) := by
  unfold extractNested at h
  split at h
  · rename_i hz
    right
    refine ⟨hz, ?_⟩
    split at h
    · simp at h
    · rename_i r1 hr1
      refine ⟨r1, hr1, ?_⟩
      split at h
      · rename_i e he
        simp only [Option.some.injEq] at h; subst h
        exact ⟨rfl, rfl, Or.inr ⟨e, he, rfl⟩⟩
      · rename_i hnone
        simp only [Option.some.injEq] at h; subst h
        exact ⟨rfl, rfl, Or.inl ⟨hnone, rfl⟩⟩
  · rename_i hz
    left
    simp only [Option.some.injEq] at h
    exact ⟨by simpa using hz, h.symm⟩

theorem IsZipOrGzip_after_write (fs fs1 : FS) (path data : Bytes)
    (h : Create fs path = (fs1, none)) :
    IsZipOrGzip (writeFile fs1 path data) path = true ↔ hasSignature data :=
  IsZipOrGzip_file _ _ _ (node_writeFile fs fs1 path data h)

theorem startsWithWrite_nil : StartsWithWrite [] := by
  intro ev h; simp at h

theorem startsWithWrite_wrote (q c : Bytes) (t : List Event) :
    StartsWithWrite (.wrote q c :: t) := by
  intro ev h
  simp only [List.head?_cons, Option.some.injEq] at h
  subst h
  intro q1; simp

theorem startsWithWrite_copyFailed (q c : Bytes) (t : List Event) :
    StartsWithWrite (.copyFailed q c :: t) := by
  intro ev h
  simp only [List.head?_cons, Option.some.injEq] at h
  subst h
  intro q1; simp

theorem endsSettled_nil (e : Option GoError) (fs : FS) : EndsSettled ⟨e, fs, []⟩ := by
  intro q c h; simp at h

theorem endsSettled_copyFailed (e : Option GoError) (fs : FS) (q c : Bytes) :
    EndsSettled ⟨e, fs, [.copyFailed q c]⟩ := by
  intro q1 c1 h; simp at h

theorem chain_copyFailed (q c : Bytes) : List.Chain' RecursionRule [.copyFailed q c] :=
  List.chain'_singleton _

/-- After a file was written, the run recurses into it exactly when its bytes have a
signature. -/
theorem extractNested_bySignature (recur : FS → Bytes → Option Run)
    (hrec : BySignature recur) (fs : FS) (destPath data : Bytes)
    (hnode : fs.node destPath = some (.file data)) (r : Run)
    (h : extractNested recur fs destPath data = some r) :
    StartsWithWrite r.trace ∧ List.Chain' RecursionRule r.trace ∧ EndsSettled r := by
  have hsig := IsZipOrGzip_file fs destPath data hnode
  rcases extractNested_cases recur _ _ _ r h with ⟨hz, hr⟩ | ⟨hz, r1, hr1, _, ht, _⟩
  · subst hr
    refine ⟨startsWithWrite_wrote _ _ _, List.chain'_singleton _, ?_⟩
    intro q c hlast
    simp only [List.getLast?_singleton, Option.some.injEq, Event.wrote.injEq] at hlast
    rw [← hlast.2]
    intro hs
    rw [hsig.2 hs] at hz
    simp at hz
  · have hs := hsig.1 hz
    obtain ⟨hhead, hchain, hend⟩ := hrec _ _ _ hr1
    rw [ht]
    refine ⟨startsWithWrite_wrote _ _ _, ?_, ?_⟩
    · rw [List.chain'_cons']
      refine ⟨?_, hchain⟩
      intro y hy
      rw [hhead] at hy
      simp only [Option.mem_def, Option.some.injEq] at hy
      subst hy
      refine ⟨fun q hq => ?_, fun q c hq _ => ?_⟩
      · simp only [Event.extracting.injEq] at hq
        subst hq
        exact ⟨data, rfl, hs⟩
      · simp only [Event.wrote.injEq] at hq
        rw [hq.1]
    · intro q c hlast
      rw [ht] at hlast
      cases ht1 : r1.trace with
      | nil => rw [ht1] at hhead; simp at hhead
      | cons a t =>
        simp only [ht1, List.getLast?_cons_cons] at hlast
        rw [← ht1] at hlast
        exact hend q c hlast

theorem extractZipEntry_bySignature (codec : Codec) (recur : FS → Bytes → Option Run)
    (hrec : BySignature recur) (p opened d : Bytes) (f : ZipEntry) (fs : FS) (r : Run)
    (h : extractZipEntry codec recur p opened d f fs = some r) :
    StartsWithWrite r.trace ∧ List.Chain' RecursionRule r.trace ∧ EndsSettled r := by
  unfold extractZipEntry at h
  simp only at h
  split at h
  · split at h <;>
      (simp only [Option.some.injEq] at h; subst h
       exact ⟨startsWithWrite_nil, List.chain'_nil, endsSettled_nil _ _⟩)
  · split at h
    · simp only [Option.some.injEq] at h; subst h
      exact ⟨startsWithWrite_nil, List.chain'_nil, endsSettled_nil _ _⟩
    · split at h
      · simp only [Option.some.injEq] at h; subst h
        exact ⟨startsWithWrite_nil, List.chain'_nil, endsSettled_nil _ _⟩
      · rename_i fs1 hc
        split at h
        · simp only [Option.some.injEq] at h; subst h
          exact ⟨startsWithWrite_copyFailed _ _ _, chain_copyFailed _ _,
            endsSettled_copyFailed _ _ _ _⟩
        · rename_i data hread
          exact extractNested_bySignature recur hrec _ _ data
            (node_writeFile fs fs1 _ data hc) r h

/-- Two runs in a row: the second does not begin with a call. -/
theorem chain_append_runs (r1 : Run) (t2 : List Event)
    (h1 : List.Chain' RecursionRule r1.trace) (hend : EndsSettled r1)
    (h2 : List.Chain' RecursionRule t2) (hstart : StartsWithWrite t2) :
    List.Chain' RecursionRule (r1.trace ++ t2) := by
  rw [List.chain'_append]
  refine ⟨h1, h2, ?_⟩
  intro x hx y hy
  refine ⟨fun q1 hq => absurd hq (hstart y hy q1), fun q1 c1 hx1 hs => ?_⟩
  subst hx1
  exact absurd hs (hend q1 c1 hx)

theorem getLast_append_wrote (t1 t2 : List Event) (q c : Bytes)
    (h : (t1 ++ t2).getLast? = some (.wrote q c)) :
    t2.getLast? = some (.wrote q c) ∨ (t2 = [] ∧ t1.getLast? = some (.wrote q c)) := by
  rw [List.getLast?_append] at h
  cases h2 : t2.getLast? with
  | none =>
    right
    rw [h2] at h
    exact ⟨List.getLast?_eq_none_iff.1 h2, by simpa using h⟩
  | some x =>
    left
    rw [h2] at h
    simpa using h

theorem extractZipEntries_bySignature (codec : Codec) (recur : FS → Bytes → Option Run)
    (hrec : BySignature recur) (p opened d : Bytes) (entries : List ZipEntry) (fs : FS)
    (r : Run) (h : extractZipEntries codec recur p opened d entries fs = some r) :
    StartsWithWrite r.trace ∧ List.Chain' RecursionRule r.trace ∧ EndsSettled r := by
  induction entries generalizing fs r with
  | nil =>
    simp only [extractZipEntries, Option.some.injEq] at h; subst h
    exact ⟨startsWithWrite_nil, List.chain'_nil, endsSettled_nil _ _⟩
  | cons f rest ih =>
    unfold extractZipEntries at h
    split at h
    · simp at h
    · rename_i r1 hr1
      obtain ⟨hs1, hc1, he1⟩ := extractZipEntry_bySignature codec recur hrec p opened d f fs
        r1 hr1
      split at h
      · simp only [Option.some.injEq] at h; subst h; exact ⟨hs1, hc1, he1⟩
      · cases hr2 : extractZipEntries codec recur p opened d rest r1.fs with
        | none => simp [hr2] at h
        | some r2 =>
          simp only [hr2, Option.map_some', Option.some.injEq] at h; subst h
          obtain ⟨hs2, hc2, he2⟩ := ih _ _ hr2
          refine ⟨?_, chain_append_runs r1 r2.trace hc1 he1 hc2 hs2, ?_⟩
          · intro ev hev
            simp only [Run.after, List.head?_append] at hev
            cases ht : r1.trace.head? with
            | none => rw [ht] at hev; exact hs2 ev (by simpa using hev)
            | some x => rw [ht] at hev; exact hs1 ev (by rw [ht]; simpa using hev)
          · intro q c hlast
            simp only [Run.after] at hlast
            rcases getLast_append_wrote _ _ _ _ hlast with hl | ⟨_, hl⟩
            · exact he2 q c hl
            · exact he1 q c hl

theorem extractZipRecursive_bySignature (codec : Codec) (recur : FS → Bytes → Option Run)
    (hrec : BySignature recur) (fs : FS) (p : Bytes) (r : Run)
    (h : extractZipRecursive codec recur fs p = some r) :
    StartsWithWrite r.trace ∧ List.Chain' RecursionRule r.trace ∧ EndsSettled r := by
  unfold extractZipRecursive at h
  split at h
  · simp only [Option.some.injEq] at h; subst h
    exact ⟨startsWithWrite_nil, List.chain'_nil, endsSettled_nil _ _⟩
  · split at h
    · simp only [Option.some.injEq] at h; subst h
      exact ⟨startsWithWrite_nil, List.chain'_nil, endsSettled_nil _ _⟩
    · exact extractZipEntries_bySignature codec recur hrec _ _ _ _ _ _ h

theorem extractGzipRecursive_bySignature (codec : Codec) (recur : FS → Bytes → Option Run)
    (hrec : BySignature recur) (fs : FS) (p : Bytes) (r : Run)
    (h : extractGzipRecursive codec recur fs p = some r) :
    StartsWithWrite r.trace ∧ List.Chain' RecursionRule r.trace ∧ EndsSettled r := by
  unfold extractGzipRecursive at h
  split at h
  · simp only [Option.some.injEq] at h; subst h
    exact ⟨startsWithWrite_nil, List.chain'_nil, endsSettled_nil _ _⟩
  · split at h
    · simp only [Option.some.injEq] at h; subst h
      exact ⟨startsWithWrite_nil, List.chain'_nil, endsSettled_nil _ _⟩
    · simp only [Option.some.injEq] at h; subst h
      exact ⟨startsWithWrite_nil, List.chain'_nil, endsSettled_nil _ _⟩
    · split at h
      · simp only [Option.some.injEq] at h; subst h
        exact ⟨startsWithWrite_nil, List.chain'_nil, endsSettled_nil _ _⟩
      · rename_i gz hgz
        simp only at h
        split at h
        · simp only [Option.some.injEq] at h; subst h
          exact ⟨startsWithWrite_nil, List.chain'_nil, endsSettled_nil _ _⟩
        · rename_i fs2 hc
          split at h
          · simp only [Option.some.injEq] at h; subst h
            exact ⟨startsWithWrite_copyFailed _ _ _, chain_copyFailed _ _,
              endsSettled_copyFailed _ _ _ _⟩
          · rename_i data hread
            exact extractNested_bySignature recur hrec _ _ data
              (node_writeFile _ fs2 _ data hc) r h

theorem level_to_call (p : Bytes) (r1 : Run)
    (h : StartsWithWrite r1.trace ∧ List.Chain' RecursionRule r1.trace ∧ EndsSettled r1) :
    (Run.after [.extracting p] r1).trace.head? = some (.extracting p) ∧
    List.Chain' RecursionRule (Run.after [.extracting p] r1).trace ∧
    EndsSettled (Run.after [.extracting p] r1) := by
  obtain ⟨hs, hc, he⟩ := h
  refine ⟨rfl, ?_, ?_⟩
  · show List.Chain' RecursionRule (.extracting p :: r1.trace)
    rw [List.chain'_cons']
    refine ⟨?_, hc⟩
    intro y hy
    exact ⟨fun q1 hq => absurd hq (hs y hy q1), fun q1 c1 hq => by simp at hq⟩
  · intro q c hlast
    change (Event.extracting p :: r1.trace).getLast? = _ at hlast
    cases ht : r1.trace with
    | nil => rw [ht] at hlast; simp at hlast
    | cons a t =>
      simp only [ht, List.getLast?_cons_cons] at hlast
      rw [← ht] at hlast
      exact he q c hlast

/-- Every run of `ExtractRecursive` begins with the call itself and recurses exactly into the
files it has just written whose content has a signature. -/
theorem ExtractRecursive_bySignature (codec : Codec) (fuel : Nat) :
    BySignature (ExtractRecursive codec fuel) := by
  induction fuel with
  | zero => intro fs p r h; simp [ExtractRecursive] at h
  | succ n ih =>
    intro fs p r h
    unfold ExtractRecursive at h
    split at h
    · cases hr : extractZipRecursive codec (ExtractRecursive codec n) fs p with
      | none => simp [hr] at h
      | some r1 =>
        simp only [hr, Option.map_some', Option.some.injEq] at h; subst h
        exact level_to_call p r1 (extractZipRecursive_bySignature codec _ ih fs p r1 hr)
    · cases hr : extractGzipRecursive codec (ExtractRecursive codec n) fs p with
      | none => simp [hr] at h
      | some r1 =>
        simp only [hr, Option.map_some', Option.some.injEq] at h; subst h
        exact level_to_call p r1 (extractGzipRecursive_bySignature codec _ ih fs p r1 hr)

/-- What the lines that end both extraction functions return: the result of the call of
`recur` on the written file when its bytes have a signature, and the plain result without any
call when they have none. -/
theorem extractNested_eq (recur : FS → Bytes → Option Run) (fs : FS) (q c : Bytes)
    (hnode : fs.node q = some (.file c)) :
    (hasSignature c →
      extractNested recur fs q c =
        (recur fs q).map (fun r1 =>
          ⟨r1.err.map (GoError.wrap (str "failed to recursively extract " ++ q)), r1.fs,
            .wrote q c :: r1.trace⟩)) ∧
    (¬ hasSignature c → extractNested recur fs q c = some ⟨none, fs, [.wrote q c]⟩) := by
  have hsig := IsZipOrGzip_file fs q c hnode
  constructor
  · intro hs
    unfold extractNested
    rw [if_pos (hsig.2 hs)]
    cases hr : recur fs q with
    | none => rfl
    | some r1 =>
      cases he : r1.err with
      | none => simp [he]
      | some e => simp [he]
  · intro hs
    have hz : IsZipOrGzip fs q = false := by
      rw [Bool.eq_false_iff, Ne, hsig]; exact hs
    unfold extractNested
    simp [hz]

/-! ## What a successful extraction has written -/

theorem node_eq_lookup (fs : FS) (path : Bytes) (h : path ≠ []) :
    fs.node path = fs.lookup (Clean path) := by
  simp [FS.node, h]

theorem extractZipEntries_append (codec : Codec) (recur : FS → Bytes → Option Run)
    (p opened d : Bytes) (pre post : List ZipEntry) (fs : FS) (r0 : Run)
    (hpre : extractZipEntries codec recur p opened d pre fs = some r0) (hok : r0.err = none) :
    extractZipEntries codec recur p opened d (pre ++ post) fs =
      (extractZipEntries codec recur p opened d post r0.fs).map (Run.after r0.trace) := by
  induction pre generalizing fs r0 with
  | nil =>
    simp only [extractZipEntries, Option.some.injEq] at hpre; subst hpre
    simp only [List.nil_append]
    cases extractZipEntries codec recur p opened d post fs <;> simp [Run.after]
  | cons f rest ih =>
    rw [List.cons_append]
    rw [extractZipEntries] at hpre
    rw [extractZipEntries]
    split at hpre
    · simp at hpre
    · rename_i r1 hr1
      split at hpre
      · rename_i e1 he1
        simp only [Option.some.injEq] at hpre; subst hpre; rw [hok] at he1; simp at he1
      · rename_i hnone
        cases hr2 : extractZipEntries codec recur p opened d rest r1.fs with
        | none => simp [hr2] at hpre
        | some r2 =>
          simp only [hr2, Option.map_some', Option.some.injEq] at hpre; subst hpre
          rw [ih r1.fs r2 hr2 (by simpa [Run.after] using hok)]
          cases hr3 : extractZipEntries codec recur p opened d post r2.fs with
          | none => simp [Run.after, hr3]
          | some r3 => simp [Run.after, hr3]

/-- When the body of the loop returns an error at an entry, the loop returns that error and
reads no later entry. -/
theorem extractZipEntries_stops (codec : Codec) (recur : FS → Bytes → Option Run)
    (p opened d : Bytes) (pre post : List ZipEntry) (f : ZipEntry) (fs : FS) (r0 r1 : Run)
    (e : GoError) (hpre : extractZipEntries codec recur p opened d pre fs = some r0)
    (hok : r0.err = none)
    (hstep : extractZipEntry codec recur p opened d f r0.fs = some r1)
    (herr : r1.err = some e) :
    extractZipEntries codec recur p opened d (pre ++ f :: post) fs =
      some (Run.after r0.trace r1) := by
  rw [extractZipEntries_append codec recur p opened d pre (f :: post) fs r0 hpre hok,
    extractZipEntries]
  simp [hstep, herr]

/-! ## Archives without an extension -/

/-- The call of `ExtractRecursive` on a regular file whose last element has no dot: the
destination is the file itself, so the call fails before anything is written. -/
theorem ExtractRecursive_extensionless (codec : Codec) (fuel : Nat) (fs : FS)
    (p content : Bytes) (hfile : fs.node p = some (.file content))
    (hdot : dot ∉ lastElement p) :
    ∃ e, ExtractRecursive codec (fuel + 1) fs p = some ⟨some e, fs, [.extracting p]⟩ ∧
      (e = .wrap (str "failed to create destination directory")
          (.pathError (str "mkdir") p .ENOTDIR) ∨
        codec.openZip content = .error e) := by
  have hd := removeAllExtensions_fixed p hdot
  have hm := MkdirAll_on_file fs p content 0o755 hfile
  unfold ExtractRecursive
  split
  · unfold extractZipRecursive Codec.OpenReader
    rw [hfile]
    simp only
    cases ho : codec.openZip content with
    | error e => exact ⟨e, by simp [Run.after], Or.inr rfl⟩
    | ok entries =>
      simp only [hd, hm]
      exact ⟨_, by simp [Run.after], Or.inl rfl⟩
  · unfold extractGzipRecursive
    simp only [hd, hm]
    exact ⟨_, by simp [Run.after], Or.inl rfl⟩

/-! ## `ValidateFile` and `main` -/

theorem ValidateFile_eq_none (fs : FS) (p : Bytes) :
    ValidateFile fs p = none ↔ (fs.node p).isSome = true ∧ IsZipOrGzip fs p = true := by
  unfold ValidateFile
  cases hn : fs.node p with
  | none => simp
  | some n =>
    by_cases hz : IsZipOrGzip fs p = true
    · simp [hz]
    · simp [hz]

theorem main_extracts_after_validation (codec : Codec) (fuel : Nat) (fs : FS)
    (args : List Bytes) (r : MainRun) (h : main codec fuel fs args = some r)
    (ht : r.trace ≠ []) :
    ValidateFile (OpenFileAppend fs (str "bar-extract.log")).1 (args.getD 1 []) = none := by
  unfold main at h
  split at h
  · simp only [Option.some.injEq] at h; subst h; simp at ht
  · rename_i fs0 ho
    rw [ho]
    simp only
    split at h
    · simp only [Option.some.injEq] at h; subst h; simp at ht
    · split at h
      · simp only [Option.some.injEq] at h; subst h; simp at ht
      · rename_i hv
        exact hv

theorem main_stops_on_invalid (codec : Codec) (fuel : Nat) (fs fs0 : FS) (args : List Bytes)
    (e : GoError) (ho : OpenFileAppend fs (str "bar-extract.log") = (fs0, none))
    (ha : 2 ≤ args.length) (hv : ValidateFile fs0 (args.getD 1 []) = some e) :
    main codec fuel fs args = some ⟨.fatal e.Error, fs0, []⟩ := by
  unfold main
  simp only [ho]
  rw [if_neg (by omega)]
  simp only [hv]

/-! ## The single output of a gzip stream -/

/-- Every run of `extractGzipRecursive` either writes nothing and fails, or writes one file,
at the destination joined with the output name, and then only what the recursive call on
that file writes. -/
theorem gzip_trace_shape (codec : Codec) (recur : FS → Bytes → Option Run) (fs : FS)
    (p : Bytes) (r : Run) (h : extractGzipRecursive codec recur fs p = some r) :
    (r.trace = [] ∧ r.err ≠ none) ∨
    ∃ fs1 content gz fs2 data copyErr,
      MkdirAll fs (removeAllExtensions p) 0o755 = (fs1, none) ∧
      fs1.node p = some (.file content) ∧ codec.newGzipReader content = .ok gz ∧
      Create fs1 (Join [removeAllExtensions p,
        gzipOutName (removeAllExtensions p) gz]) = (fs2, none) ∧
      gzipDelivered codec p content (Join [removeAllExtensions p,
        gzipOutName (removeAllExtensions p) gz]) gz = (data, copyErr) ∧
      ((copyErr ≠ none ∧ r.err ≠ none ∧
          r.trace = [.copyFailed (Join [removeAllExtensions p,
            gzipOutName (removeAllExtensions p) gz]) data]) ∨
        (copyErr = none ∧ ∃ nested,
          r.trace = .wrote (Join [removeAllExtensions p,
            gzipOutName (removeAllExtensions p) gz]) data :: nested ∧
          (nested = [] ∨ ∃ r1, recur (writeFile fs2 (Join [removeAllExtensions p,
            gzipOutName (removeAllExtensions p) gz]) data)
              (Join [removeAllExtensions p,
                gzipOutName (removeAllExtensions p) gz]) = some r1 ∧
              r1.trace = nested))) := by
  unfold extractGzipRecursive at h
  split at h
  · simp only [Option.some.injEq] at h; subst h; left; simp
  · rename_i fs1 hm
    split at h
    · simp only [Option.some.injEq] at h; subst h; left; simp
    · simp only [Option.some.injEq] at h; subst h; left; simp
    · rename_i content hnode
      split at h
      · simp only [Option.some.injEq] at h; subst h; left; simp
      · rename_i gz hgz
        simp only at h
        split at h
        · simp only [Option.some.injEq] at h; subst h; left; simp
        · rename_i fs2 hc
          right
          split at h
          · rename_i data e hread
            simp only [Option.some.injEq] at h; subst h
            exact ⟨fs1, content, gz, fs2, data, some e, hm, hnode, hgz, hc, hread,
              Or.inl ⟨by simp, by simp, rfl⟩⟩
          · rename_i data hread
            refine ⟨fs1, content, gz, fs2, data, none, hm, hnode, hgz, hc, hread,
              Or.inr ⟨rfl, ?_⟩⟩
            rcases extractNested_cases recur _ _ _ r h with ⟨_, hr⟩ | ⟨_, r1, hr1, _, ht, _⟩
            · subst hr; exact ⟨[], rfl, Or.inl rfl⟩
            · exact ⟨r1.trace, ht, Or.inr ⟨r1, hr1, rfl⟩⟩

/-- A gzip stream whose data has no signature is extracted in one write. -/
theorem gzip_plain_output (codec : Codec) (recur : FS → Bytes → Option Run) (fs fs1 fs2 : FS)
    (p content data : Bytes) (gz : GzipStream)
    (hm : MkdirAll fs (removeAllExtensions p) 0o755 = (fs1, none))
    (hnode : fs1.node p = some (.file content)) (hgz : codec.newGzipReader content = .ok gz)
    (hc : Create fs1 (Join [removeAllExtensions p,
      gzipOutName (removeAllExtensions p) gz]) = (fs2, none))
    (hread : gzipDelivered codec p content (Join [removeAllExtensions p,
      gzipOutName (removeAllExtensions p) gz]) gz = (data, none))
    (hsig : ¬ hasSignature data) :
    extractGzipRecursive codec recur fs p =
      some ⟨none, writeFile fs2 (Join [removeAllExtensions p,
          gzipOutName (removeAllExtensions p) gz]) data,
        [.wrote (Join [removeAllExtensions p,
          gzipOutName (removeAllExtensions p) gz]) data]⟩ := by
  have hz : IsZipOrGzip (writeFile fs2 (Join [removeAllExtensions p,
      gzipOutName (removeAllExtensions p) gz]) data)
      (Join [removeAllExtensions p,
        gzipOutName (removeAllExtensions p) gz]) = false := by
    rw [Bool.eq_false_iff, Ne, IsZipOrGzip_after_write _ _ _ data hc]
    exact hsig
  unfold extractGzipRecursive
  simp only [hm, hnode, hgz, hc, hread]
  simp [extractNested, hz]

theorem node_after_dirsAdded (fs fs1 : FS) (p content : Bytes) (h : DirsAdded fs fs1)
    (hnode : fs.node p = some (.file content)) : fs1.node p = some (.file content) := by
  have hp : p ≠ [] := by
    intro hp; subst hp; simp [FS.node] at hnode
  rw [node_eq_lookup _ _ hp] at hnode ⊢
  rcases h (Clean p) with a | ⟨a, _⟩
  · rw [a, hnode]
  · rw [hnode] at a; simp at a

/-- A gzip stream without an embedded name whose data is a supported archive: the output is
written under the base name of the destination, has no extension, and its extraction fails,
so the whole call fails. -/
theorem gzip_fallback_fails (codec : Codec) (fuel : Nat) (fs : FS) (p content : Bytes)
    (gz : GzipStream) (hfile : fs.node p = some (.file content))
    (hzip : isZipFile fs p = false) (hgz : codec.newGzipReader content = .ok gz)
    (hname : gz.name = []) (hsig : hasSignature gz.data)
    (hlast : lastElement (removeAllExtensions p) ≠ []) :
    ∃ r e, ExtractRecursive codec (fuel + 2) fs p = some r ∧ r.err = some e := by
  by_cases hdotp : dot ∈ lastElement p
  · have hdot : dot ∉ lastElement (removeAllExtensions p) :=
      (Ext_eq_nil_iff _).1 (Ext_removeAllExtensions p)
    have hfix := removeAllExtensions_fallback _ hlast hdot
    have hfixdot : dot ∉ lastElement (Join [removeAllExtensions p,
        Base (removeAllExtensions p)]) := by
      rw [← Ext_eq_nil_iff, ← hfix]; exact Ext_removeAllExtensions _
    have halias := fallback_not_archive p hlast hdotp
    rw [ExtractRecursive]
    simp only [hzip, Bool.false_eq_true, if_false]
    unfold extractGzipRecursive
    have hd := MkdirAll_dirsAdded fs (removeAllExtensions p) 0o755
    cases hm : MkdirAll fs (removeAllExtensions p) 0o755 with
    | mk fs1 em =>
      rw [hm] at hd
      cases em with
      | some e => exact ⟨_, _, rfl, rfl⟩
      | none =>
        simp only [node_after_dirsAdded fs fs1 p content hd hfile, hgz, gzipOutName, hname,
          if_true]
        cases hc : Create fs1 (Join [removeAllExtensions p,
            Base (removeAllExtensions p)]) with
        | mk fs2 ec =>
          cases ec with
          | some e => exact ⟨_, _, rfl, rfl⟩
          | none =>
            simp only [gzipDelivered, if_neg halias]
            cases hcopy : gz.copyErr with
            | some e => exact ⟨_, _, rfl, rfl⟩
            | none =>
              simp only [extractNested,
                (IsZipOrGzip_after_write fs1 fs2 _ gz.data hc).2 hsig, if_true]
              obtain ⟨e, he, _⟩ := ExtractRecursive_extensionless codec fuel
                (writeFile fs2 (Join [removeAllExtensions p, Base (removeAllExtensions p)])
                  gz.data)
                (Join [removeAllExtensions p, Base (removeAllExtensions p)]) gz.data
                (node_writeFile fs1 fs2 _ gz.data hc) hfixdot
              rw [he]
              exact ⟨_, _, rfl, rfl⟩
  · obtain ⟨e, he, _⟩ := ExtractRecursive_extensionless codec (fuel + 1) fs p content hfile
      hdotp
    exact ⟨_, e, he, rfl⟩

/-! ## How an error comes up through the nested calls -/

theorem wrapNested_cons (q : Bytes) (rest : List Bytes) (base : GoError) :
    wrapNested (q :: rest) base =
      .wrap (str "failed to recursively extract " ++ q) (wrapNested rest base) := rfl

/-- The message of an error handed up through nested calls names the nested archives, the
outermost first, in front of the message of the error itself. -/
theorem wrapNested_Error (chain : List Bytes) (base : GoError) :
    (wrapNested chain base).Error =
      (chain.map (fun q => str "failed to recursively extract " ++ q ++ str ": ")).flatten ++
        base.Error := by
  induction chain with
  | nil => rfl
  | cons q rest ih =>
    rw [wrapNested_cons, GoError.Error, ih]
    simp [List.append_assoc]

theorem wrapNested_cause (chain : List Bytes) (base : GoError) :
    (wrapNested chain base).cause = base.cause := by
  induction chain with
  | nil => rfl
  | cons q rest ih => rw [wrapNested_cons, GoError.cause, ih]

/-- When the lines that end both extraction functions return an error, it is the error of
the recursive call, wrapped. -/
theorem extractNested_fails (recur : FS → Bytes → Option Run) (fs : FS) (destPath data : Bytes)
    (hnode : fs.node destPath = some (.file data)) (r : Run) (e : GoError)
    (h : extractNested recur fs destPath data = some r) (herr : r.err = some e) :
    ∃ r1 e1, hasSignature data ∧ recur fs destPath = some r1 ∧ r1.err = some e1 ∧
      e = .wrap (str "failed to recursively extract " ++ destPath) e1 ∧
      r.trace = .wrote destPath data :: r1.trace ∧ r.fs = r1.fs := by
  rcases extractNested_cases recur _ _ _ r h with ⟨_, hr⟩ | ⟨hz, r1, hr1, hfs, ht, hcase⟩
  · subst hr; simp at herr
  · rcases hcase with ⟨_, h2⟩ | ⟨e1, he1, h2⟩
    · rw [herr] at h2; simp at h2
    · rw [herr] at h2
      simp only [Option.some.injEq] at h2
      exact ⟨r1, e1, (IsZipOrGzip_file fs destPath data hnode).1 hz, hr1, he1, h2, ht, hfs⟩

theorem extractZipEntry_fails (codec : Codec) (recur : FS → Bytes → Option Run)
    (p opened d : Bytes) (f : ZipEntry) (fs : FS) (r : Run) (e : GoError)
    (h : extractZipEntry codec recur p opened d f fs = some r) (herr : r.err = some e) :
    (∃ text cause, text ∈ levelTexts ∧ e = .wrap text cause) ∨
    ∃ n fs1 r1 e1 c, recur fs1 (Join [d, n]) = some r1 ∧ r1.err = some e1 ∧
      e = .wrap (str "failed to recursively extract " ++ Join [d, n]) e1 ∧
      fs1.node (Join [d, n]) = some (.file c) ∧ hasSignature c ∧
      r.trace = .wrote (Join [d, n]) c :: r1.trace ∧ r.fs = r1.fs := by
  unfold extractZipEntry at h
  simp only at h
  split at h
  · split at h
    · simp only [Option.some.injEq] at h; subst h
      simp only [Option.some.injEq] at herr
      exact Or.inl ⟨_, _, by simp [levelTexts], herr.symm⟩
    · simp only [Option.some.injEq] at h; subst h; simp at herr
  · split at h
    · simp only [Option.some.injEq] at h; subst h
      simp only [Option.some.injEq] at herr
      exact Or.inl ⟨_, _, by simp [levelTexts], herr.symm⟩
    · split at h
      · simp only [Option.some.injEq] at h; subst h
        simp only [Option.some.injEq] at herr
        exact Or.inl ⟨_, _, by simp [levelTexts], herr.symm⟩
      · rename_i fs1 hc
        split at h
        · simp only [Option.some.injEq] at h; subst h
          simp only [Option.some.injEq] at herr
          exact Or.inl ⟨_, _, by simp [levelTexts], herr.symm⟩
        · rename_i data hread
          obtain ⟨r1, e1, hs, hr1, he1, he, ht, hfs⟩ := extractNested_fails recur _ _ data
            (node_writeFile fs fs1 _ data hc) r e h herr
          exact Or.inr ⟨f.name, _, r1, e1, data, hr1, he1, he,
            node_writeFile fs fs1 _ data hc, hs, ht, hfs⟩

theorem extractZipEntries_fails (codec : Codec) (recur : FS → Bytes → Option Run)
    (p opened d : Bytes) (entries : List ZipEntry) (fs : FS) (r : Run) (e : GoError)
    (h : extractZipEntries codec recur p opened d entries fs = some r)
    (herr : r.err = some e) :
    (∃ text cause, text ∈ levelTexts ∧ e = .wrap text cause) ∨
    ∃ n fs1 r1 e1 c before, recur fs1 (Join [d, n]) = some r1 ∧ r1.err = some e1 ∧
      e = .wrap (str "failed to recursively extract " ++ Join [d, n]) e1 ∧
      fs1.node (Join [d, n]) = some (.file c) ∧ hasSignature c ∧
      r.trace = before ++ .wrote (Join [d, n]) c :: r1.trace ∧ r.fs = r1.fs := by
  induction entries generalizing fs r with
  | nil =>
    simp only [extractZipEntries, Option.some.injEq] at h; subst h; simp at herr
  | cons f rest ih =>
    unfold extractZipEntries at h
    split at h
    · simp at h
    · rename_i r1 hr1
      split at h
      · simp only [Option.some.injEq] at h; subst h
        rcases extractZipEntry_fails codec recur p opened d f fs _ e hr1 herr with
          hown | ⟨n, fs1, r2, e1, c, a1, a2, a3, a4, a5, a6, a7⟩
        · exact Or.inl hown
        · exact Or.inr ⟨n, fs1, r2, e1, c, [], a1, a2, a3, a4, a5, by simpa using a6, a7⟩
      · cases hr2 : extractZipEntries codec recur p opened d rest r1.fs with
        | none => simp [hr2] at h
        | some r2 =>
          simp only [hr2, Option.map_some', Option.some.injEq] at h; subst h
          rcases ih r1.fs r2 hr2 (by simpa [Run.after] using herr) with
            hown | ⟨n, fs1, r3, e1, c, before, a1, a2, a3, a4, a5, a6, a7⟩
          · exact Or.inl hown
          · exact Or.inr ⟨n, fs1, r3, e1, c, r1.trace ++ before, a1, a2, a3, a4, a5,
              by simp [Run.after, a6], by simpa [Run.after] using a7⟩

theorem extractZipRecursive_fails (codec : Codec) (recur : FS → Bytes → Option Run) (fs : FS)
    (p : Bytes) (r : Run) (e : GoError) (h : extractZipRecursive codec recur fs p = some r)
    (herr : r.err = some e) :
    OwnError codec fs p e ∨
    ∃ n fs1 r1 e1 c before,
      recur fs1 (Join [removeAllExtensions p, n]) = some r1 ∧ r1.err = some e1 ∧
      e = .wrap (str "failed to recursively extract " ++ Join [removeAllExtensions p, n]) e1 ∧
      fs1.node (Join [removeAllExtensions p, n]) = some (.file c) ∧ hasSignature c ∧
      r.trace = before ++ .wrote (Join [removeAllExtensions p, n]) c :: r1.trace ∧
      r.fs = r1.fs := by
  unfold extractZipRecursive at h
  split at h
  · rename_i e0 ho
    simp only [Option.some.injEq] at h; subst h
    simp only [Option.some.injEq] at herr
    subst herr
    exact Or.inl (Or.inl ho)
  · split at h
    · simp only [Option.some.injEq] at h; subst h
      simp only [Option.some.injEq] at herr
      exact Or.inl (Or.inr ⟨_, _, by simp [levelTexts], herr.symm⟩)
    · rcases extractZipEntries_fails codec recur p _ _ _ _ r e h herr with hown | hn
      · exact Or.inl (Or.inr hown)
      · exact Or.inr hn

theorem extractGzipRecursive_fails (codec : Codec) (recur : FS → Bytes → Option Run) (fs : FS)
    (p : Bytes) (r : Run) (e : GoError) (h : extractGzipRecursive codec recur fs p = some r)
    (herr : r.err = some e) :
    OwnError codec fs p e ∨
    ∃ n fs1 r1 e1 c before,
      recur fs1 (Join [removeAllExtensions p, n]) = some r1 ∧ r1.err = some e1 ∧
      e = .wrap (str "failed to recursively extract " ++ Join [removeAllExtensions p, n]) e1 ∧
      fs1.node (Join [removeAllExtensions p, n]) = some (.file c) ∧ hasSignature c ∧
      r.trace = before ++ .wrote (Join [removeAllExtensions p, n]) c :: r1.trace ∧
      r.fs = r1.fs := by
  unfold extractGzipRecursive at h
  split at h
  · simp only [Option.some.injEq] at h; subst h
    simp only [Option.some.injEq] at herr
    exact Or.inl (Or.inr ⟨_, _, by simp [levelTexts], herr.symm⟩)
  · split at h
    · simp only [Option.some.injEq] at h; subst h
      simp only [Option.some.injEq] at herr
      exact Or.inl (Or.inr ⟨_, _, by simp [levelTexts], herr.symm⟩)
    · simp only [Option.some.injEq] at h; subst h
      simp only [Option.some.injEq] at herr
      exact Or.inl (Or.inr ⟨_, _, by simp [levelTexts], herr.symm⟩)
    · split at h
      · simp only [Option.some.injEq] at h; subst h
        simp only [Option.some.injEq] at herr
        exact Or.inl (Or.inr ⟨_, _, by simp [levelTexts], herr.symm⟩)
      · rename_i gz hgz
        simp only at h
        split at h
        · simp only [Option.some.injEq] at h; subst h
          simp only [Option.some.injEq] at herr
          exact Or.inl (Or.inr ⟨_, _, by simp [levelTexts], herr.symm⟩)
        · rename_i fs2 hc
          split at h
          · simp only [Option.some.injEq] at h; subst h
            simp only [Option.some.injEq] at herr
            exact Or.inl (Or.inr ⟨_, _, by simp [levelTexts], herr.symm⟩)
          · rename_i data hread
            obtain ⟨r1, e1, hs, hr1, he1, he, ht, hfs⟩ := extractNested_fails recur _ _ data
              (node_writeFile _ fs2 _ data hc) r e h herr
            exact Or.inr ⟨gzipOutName (removeAllExtensions p) gz, _, r1, e1, data, [], hr1,
              he1, he, node_writeFile _ fs2 _ data hc, hs, by simpa using ht, hfs⟩

/-- Every error `ExtractRecursive` returns is an error of the call on some archive nested
in the one it was called on, wrapped once by every call around it. -/
theorem ExtractRecursive_fails_inside (codec : Codec) (fuel : Nat) :
    ∀ fs p r e, ExtractRecursive codec fuel fs p = some r → r.err = some e →
      ∃ chain base, e = wrapNested chain base ∧ FailsInside codec chain fuel fs p r base := by
  induction fuel with
  | zero => intro fs p r e h; simp [ExtractRecursive] at h
  | succ n ih =>
    intro fs p r e h herr
    have hlevel : ∃ r0, r = Run.after [.extracting p] r0 ∧
        (OwnError codec fs p e ∨
          ∃ m fs1 r1 e1 c before,
            ExtractRecursive codec n fs1 (Join [removeAllExtensions p, m]) = some r1 ∧
            r1.err = some e1 ∧
            e = .wrap (str "failed to recursively extract " ++
              Join [removeAllExtensions p, m]) e1 ∧
            fs1.node (Join [removeAllExtensions p, m]) = some (.file c) ∧ hasSignature c ∧
            r0.trace = before ++ .wrote (Join [removeAllExtensions p, m]) c :: r1.trace ∧
            r0.fs = r1.fs) := by
      have h0 := h
      unfold ExtractRecursive at h0
      split at h0
      · cases hr : extractZipRecursive codec (ExtractRecursive codec n) fs p with
        | none => simp [hr] at h0
        | some r0 =>
          simp only [hr, Option.map_some', Option.some.injEq] at h0
          refine ⟨r0, h0.symm, ?_⟩
          exact extractZipRecursive_fails codec _ fs p r0 e hr
            (by rw [← h0] at herr; simpa [Run.after] using herr)
      · cases hr : extractGzipRecursive codec (ExtractRecursive codec n) fs p with
        | none => simp [hr] at h0
        | some r0 =>
          simp only [hr, Option.map_some', Option.some.injEq] at h0
          refine ⟨r0, h0.symm, ?_⟩
          exact extractGzipRecursive_fails codec _ fs p r0 e hr
            (by rw [← h0] at herr; simpa [Run.after] using herr)
    obtain ⟨r0, hr0, hown | ⟨m, fs1, r1, e1, c, before, a1, a2, a3, a4, a5, a6, a7⟩⟩ := hlevel
    · exact ⟨[], e, rfl, h, herr, hown⟩
    · obtain ⟨chain, base, hchain, hin⟩ := ih fs1 _ r1 e1 a1 a2
      refine ⟨Join [removeAllExtensions p, m] :: chain, base, ?_, h, ?_, ?_⟩
      · rw [wrapNested_cons, ← hchain]; exact a3
      · rw [herr, wrapNested_cons, ← hchain, a3]
      · refine ⟨m, fs1, r1, c, .extracting p :: before, rfl, a4, a5, ?_, ?_, ?_⟩
        · rw [hr0]; simp [Run.after, a6]
        · rw [hr0]; simpa [Run.after] using a7
        · simpa using hin

/-! ## More fuel gives the same result -/

/-- C1. For a path that names a regular file of content `content`: `isZipFile` is true iff
the content has at least 4 bytes and begins with 50 4B 03 04, `isGzipFile` is true iff it has
at least 2 bytes and begins with 1F 8B, and `IsZipOrGzip` is true iff one of the two holds;
so a content that begins with the zip local-file-header signature (an archive with one entry)
and a gzip stream are detected, and the four bytes 00 00 00 00 are not. -/
theorem detection_by_signature (fs : FS) (p content : Bytes)
    (h : fs.node p = some (.file content)) :
    (isZipFile fs p = true ↔
      4 ≤ content.length ∧ content.take 4 = [0x50, 0x4B, 0x03, 0x04]) ∧
    (isGzipFile fs p = true ↔ 2 ≤ content.length ∧ content.take 2 = [0x1F, 0x8B]) ∧
    (IsZipOrGzip fs p = true ↔
      (4 ≤ content.length ∧ content.take 4 = [0x50, 0x4B, 0x03, 0x04]) ∨
      (2 ≤ content.length ∧ content.take 2 = [0x1F, 0x8B])) ∧
    (∀ rest, content = [0x50, 0x4B, 0x03, 0x04] ++ rest → IsZipOrGzip fs p = true) ∧
    (∀ rest, content = [0x1F, 0x8B] ++ rest → IsZipOrGzip fs p = true) ∧
    (content = [0x00, 0x00, 0x00, 0x00] → IsZipOrGzip fs p = false) := by
  have hz : (4 ≤ content.length ∧ content.take 4 = [0x50, 0x4B, 0x03, 0x04]) ↔
      content.take 4 = zipMagic :=
    ⟨fun x => x.2, fun x => ⟨take_eq_length_le content _ 4 x rfl, x⟩⟩
  have hg : (2 ≤ content.length ∧ content.take 2 = [0x1F, 0x8B]) ↔
      content.take 2 = gzipMagic :=
    ⟨fun x => x.2, fun x => ⟨take_eq_length_le content _ 2 x rfl, x⟩⟩
  refine ⟨?_, ?_, ?_, ?_, ?_, ?_⟩
  · rw [hz]; exact isZipFile_file fs p content h
  · rw [hg]; exact isGzipFile_file fs p content h
  · rw [hz, hg]; exact IsZipOrGzip_file fs p content h
  · intro rest hc
    rw [IsZipOrGzip_file fs p content h]
    left; subst hc; rfl
  · intro rest hc
    rw [IsZipOrGzip_file fs p content h]
    right; subst hc; rfl
  · intro hc
    rw [Bool.eq_false_iff, Ne, IsZipOrGzip_file fs p content h]
    subst hc
    decide

/-- C1, at the file `nested.appzip` of the test, an archive with one entry. -/
theorem detection_by_signature_witness :
    (oneFile (str "nested.appzip") nestedAppzip).node (str "nested.appzip") =
      some (.file nestedAppzip) ∧
    (isZipFile (oneFile (str "nested.appzip") nestedAppzip) (str "nested.appzip") = true ↔
      4 ≤ nestedAppzip.length ∧ nestedAppzip.take 4 = [0x50, 0x4B, 0x03, 0x04]) ∧
    IsZipOrGzip (oneFile (str "nested.appzip") nestedAppzip) (str "nested.appzip") = true :=
  ⟨by decide,
    (detection_by_signature (oneFile (str "nested.appzip") nestedAppzip)
      (str "nested.appzip") nestedAppzip (by decide)).1,
    (detection_by_signature (oneFile (str "nested.appzip") nestedAppzip)
      (str "nested.appzip") nestedAppzip (by decide)).2.2.2.1 (nestedAppzip.drop 4)
      (by decide)⟩

/-- C2. The loop of `removeAllExtensions` ends (within `len(path) + 1` tests of its
condition) and returns the path cut just before the first dot that occurs after the last
slash, so `path.Ext` of the result is empty and a path whose last element has no dot is
returned unchanged; "pkg.tar.gz" gives "pkg", "x.bar" gives "x", "noext" gives "noext". -/
theorem removeAllExtensions_strips_every_extension (p : Bytes) :
    removeAllExtensionsLoop (p.length + 1) p = some (removeAllExtensions p) ∧
    removeAllExtensions p = cutAtFirstDot p ∧
    Ext (removeAllExtensions p) = [] ∧
    (dot ∉ lastElement p → removeAllExtensions p = p) ∧
    removeAllExtensions (str "pkg.tar.gz") = str "pkg" ∧
    removeAllExtensions (str "x.bar") = str "x" ∧
    removeAllExtensions (str "noext") = str "noext" := by
  refine ⟨?_, removeAllExtensions_eq p, Ext_removeAllExtensions p,
    removeAllExtensions_fixed p, by decide, by decide, by decide⟩
  rw [removeAllExtensions_eq]; exact removeAllExtensionsLoop_eq p

/-- C5, as stated, fails: the file "x" of the two bytes 1F 8B is shorter than 4 bytes and
`IsZipOrGzip` is true of it. -/
theorem two_byte_gzip_is_detected :
    (oneFile (str "x") [0x1F, 0x8B]).node (str "x") = some (.file [0x1F, 0x8B]) ∧
    [(0x1F : UInt8), 0x8B].length < 4 ∧
    IsZipOrGzip (oneFile (str "x") [0x1F, 0x8B]) (str "x") = true := by
  decide

/-- C5 (amended). `IsZipOrGzip` is a boolean and is false for every path that names nothing,
for every directory (it cannot be read), for every empty file, for every file shorter than
2 bytes, and for every file shorter than 4 bytes that does not begin with 1F 8B. -/
theorem detection_false_cases (fs : FS) (p : Bytes) :
    (fs.node p = none → IsZipOrGzip fs p = false) ∧
    (∀ perm, fs.node p = some (.dir perm) → IsZipOrGzip fs p = false) ∧
    (fs.node p = some (.file []) → IsZipOrGzip fs p = false) ∧
    (∀ content, fs.node p = some (.file content) → content.length < 2 →
      IsZipOrGzip fs p = false) ∧
    (∀ content, fs.node p = some (.file content) → content.length < 4 →
      content.take 2 ≠ [0x1F, 0x8B] → IsZipOrGzip fs p = false) := by
  have hshort : ∀ content, fs.node p = some (.file content) → content.length < 4 →
      content.take 2 ≠ [0x1F, 0x8B] → IsZipOrGzip fs p = false := by
    intro content hn hlen hg
    rw [Bool.eq_false_iff, Ne, IsZipOrGzip_file fs p content hn]
    rintro (hz | hz)
    · have := take_eq_length_le content _ 4 hz rfl
      omega
    · exact hg hz
  refine ⟨?_, ?_, ?_, ?_, hshort⟩
  · intro hn
    have hx : ∀ c, fs.node p ≠ some (.file c) := by intro c; rw [hn]; simp
    simp [IsZipOrGzip, isZipFile_not_file fs p hx, isGzipFile_not_file fs p hx]
  · intro perm hn
    have hx : ∀ c, fs.node p ≠ some (.file c) := by intro c; rw [hn]; simp
    simp [IsZipOrGzip, isZipFile_not_file fs p hx, isGzipFile_not_file fs p hx]
  · intro hn
    exact hshort [] hn (by simp) (by simp)
  · intro content hn hlen
    refine hshort content hn (by omega) ?_
    intro hg
    have := take_eq_length_le content _ 2 hg rfl
    omega

/-- C5 (amended), at a missing path, at a directory and at a file of the three bytes
50 4B 03. -/
theorem detection_false_cases_witness :
    IsZipOrGzip FS.empty (str "/tmp/doesnotexist.bar") = false ∧
    IsZipOrGzip FS.empty (str "/") = false ∧
    IsZipOrGzip (oneFile (str "short.zip") [0x50, 0x4B, 0x03]) (str "short.zip") = false :=
  ⟨(detection_false_cases FS.empty (str "/tmp/doesnotexist.bar")).1 (by decide),
    (detection_false_cases FS.empty (str "/")).2.1 0o755 (by decide),
    (detection_false_cases (oneFile (str "short.zip") [0x50, 0x4B, 0x03])
      (str "short.zip")).2.2.2.2 [0x50, 0x4B, 0x03] (by decide) (by decide) (by decide)⟩

/-- C9. `ValidateFile` returns nil iff the path names something and `IsZipOrGzip` holds of
it: it returns an error for a path that names nothing and for an empty file, and nil for a
file that begins with the zip signature. `main` runs `ExtractRecursive` only after
`ValidateFile` returned nil: a run of `main` with an event of the extraction had
`ValidateFile` return nil, and when `ValidateFile` returns an error `main` ends with that
error and no event. -/
theorem validate_then_extract (fs : FS) (p : Bytes) :
    (ValidateFile fs p = none ↔ (fs.node p).isSome = true ∧ IsZipOrGzip fs p = true) ∧
    (fs.node p = none → ValidateFile fs p ≠ none) ∧
    (fs.node p = some (.file []) → ValidateFile fs p ≠ none) ∧
    (∀ rest, fs.node p = some (.file ([0x50, 0x4B, 0x03, 0x04] ++ rest)) →
      ValidateFile fs p = none) ∧
    (∀ codec fuel args r, main codec fuel fs args = some r → r.trace ≠ [] →
      ValidateFile (OpenFileAppend fs (str "bar-extract.log")).1 (args.getD 1 []) = none) ∧
    (∀ codec fuel fs0 args e, OpenFileAppend fs (str "bar-extract.log") = (fs0, none) →
      2 ≤ args.length → ValidateFile fs0 (args.getD 1 []) = some e →
      main codec fuel fs args = some ⟨.fatal e.Error, fs0, []⟩) := by
  refine ⟨ValidateFile_eq_none fs p, ?_, ?_, ?_, ?_, ?_⟩
  · intro hn hv
    rw [ValidateFile_eq_none, hn] at hv
    simp at hv
  · intro hn hv
    rw [ValidateFile_eq_none, IsZipOrGzip_file fs p [] hn] at hv
    rcases hv.2 with h | h <;> revert h <;> decide
  · intro rest hn
    rw [ValidateFile_eq_none, hn, IsZipOrGzip_file fs p _ hn]
    exact ⟨rfl, Or.inl rfl⟩
  · intro codec fuel args r h ht
    exact main_extracts_after_validation codec fuel fs args r h ht
  · intro codec fuel fs0 args e ho ha hv
    exact main_stops_on_invalid codec fuel fs fs0 args e ho ha hv

/-- C9, at the tests of main_test.go: a missing path, an empty file, an archive with one
entry; and `main` on the empty file ends with the error of `ValidateFile`. -/
theorem validate_then_extract_witness :
    ValidateFile FS.empty (str "/tmp/doesnotexist.bar") ≠ none ∧
    ValidateFile (oneFile (str "notzip") []) (str "notzip") ≠ none ∧
    ValidateFile (oneFile (str "testbar.bar")
      (exampleZip [exampleEntry 0 (str "test.appzip") []])) (str "testbar.bar") = none ∧
    main exampleCodec 5 (oneFile (str "notzip") []) [str "bar-extract", str "notzip"] =
      some ⟨.fatal (str "file notzip is not zip/gzip"),
        (OpenFileAppend (oneFile (str "notzip") []) (str "bar-extract.log")).1, []⟩ :=
  ⟨(validate_then_extract FS.empty (str "/tmp/doesnotexist.bar")).2.1 (by decide),
    (validate_then_extract (oneFile (str "notzip") []) (str "notzip")).2.2.1 (by decide),
    (validate_then_extract (oneFile (str "testbar.bar")
      (exampleZip [exampleEntry 0 (str "test.appzip") []])) (str "testbar.bar")).2.2.2.1
      ((exampleZip [exampleEntry 0 (str "test.appzip") []]).drop 4) (by decide),
    (validate_then_extract (oneFile (str "notzip") []) (str "notzip")).2.2.2.2.2
      exampleCodec 5 _ [str "bar-extract", str "notzip"]
      (.msg (str "file notzip is not zip/gzip")) (Prod.ext rfl (by decide)) (by decide)
      (by decide)⟩

/-- C4, as stated, fails. For the archive path "a.zip" and the entry name "../x" the entry
is written to "x", which does not begin with "a/"; extracting such an archive writes the
file "x" beside the destination directory "a". The prefix is also lost when the stripped
path is not a cleaned path ("./a.zip" with the name "x" is written to "a/x", not under
"./a/"), when it is the root ("/.zip" with "x" is written to "/x"), and when the name has
no element of its own ("a.zip" with the name "." is written to "a"). -/
theorem entry_name_escapes_destination :
    removeAllExtensions (str "a.zip") = str "a" ∧
    Join [removeAllExtensions (str "a.zip"), str "../x"] = str "x" ∧
    ¬ ((removeAllExtensions (str "a.zip") ++ [slash]) <+:
      Join [removeAllExtensions (str "a.zip"), str "../x"]) ∧
    (ExtractRecursive exampleCodec 2
      (oneFile (str "a.zip") (exampleZip [exampleEntry 0 (str "../x") (str "hi")]))
      (str "a.zip")).map (fun r => (r.err, r.trace, r.fs.node (str "x"))) =
      some (none, [.extracting (str "a.zip"), .wrote (str "x") (str "hi")],
        some (.file (str "hi"))) ∧
    Join [removeAllExtensions (str "./a.zip"), str "x"] = str "a/x" ∧
    ¬ ((removeAllExtensions (str "./a.zip") ++ [slash]) <+:
      Join [removeAllExtensions (str "./a.zip"), str "x"]) ∧
    Join [removeAllExtensions (str "/.zip"), str "x"] = str "/x" ∧
    ¬ ((removeAllExtensions (str "/.zip") ++ [slash]) <+:
      Join [removeAllExtensions (str "/.zip"), str "x"]) ∧
    Join [removeAllExtensions (str "a.zip"), str "."] = str "a" ∧
    ¬ ((removeAllExtensions (str "a.zip") ++ [slash]) <+:
      Join [removeAllExtensions (str "a.zip"), str "."]) := by
  decide

/-- C4 (amended). For every archive path `p` whose stripped path
`d = removeAllExtensions(p)` is a cleaned path (`path.Clean(d) = d`) other than `/`, and
every entry name `n` that never climbs above the directory it is joined to and ends below it
(read element by element, `..` never outnumbers the names before it, and at the end a name
remains), the path the entry is written to, `path.Join(d, n)`, has `d` followed by `/` as a
prefix. -/
theorem entry_path_inside_destination (p n : Bytes)
    (hclean : Clean (removeAllExtensions p) = removeAllExtensions p)
    (hroot : removeAllExtensions p ≠ [slash])
    (hin : landsInside n = true) :
    (removeAllExtensions p ++ [slash]) <+: Join [removeAllExtensions p, n] := by
  have hcwd : removeAllExtensions p ≠ [dot] := by
    intro h
    have := Ext_removeAllExtensions p
    rw [h] at this
    revert this
    decide
  obtain ⟨t, ht⟩ := Join_inside (removeAllExtensions p) n hclean hroot hcwd hin
  exact ⟨t, by rw [ht]; simp⟩

/-- C4 (amended), at the archive "pkg.tar.gz" and the entry name "sub/../lib/./file.txt". -/
theorem entry_path_inside_destination_witness :
    Clean (removeAllExtensions (str "pkg.tar.gz")) = removeAllExtensions (str "pkg.tar.gz") ∧
    landsInside (str "sub/../lib/./file.txt") = true ∧
    Join [removeAllExtensions (str "pkg.tar.gz"), str "sub/../lib/./file.txt"] =
      str "pkg/lib/file.txt" ∧
    (removeAllExtensions (str "pkg.tar.gz") ++ [slash]) <+:
      Join [removeAllExtensions (str "pkg.tar.gz"), str "sub/../lib/./file.txt"] :=
  ⟨by decide, by decide, by decide,
    entry_path_inside_destination (str "pkg.tar.gz") (str "sub/../lib/./file.txt") (by decide)
      (by decide) (by decide)⟩

/-- C8. In every run of `ExtractRecursive`, whether it returns an error or not, the first
event is the call itself, and any two consecutive events obey the rule of recursion by
content: a call on a path comes right after a file whose bytes begin with a signature was
written at that path (only if), and a file written with such bytes is followed at once by the
call on it (if); the run never ends right after such a file was written. A file counts as
written when `io.Copy` returned no error. The rule reads the bytes only: `hasSignature` is
what `IsZipOrGzip` computes of a file, whatever its name. Step by step, in
`extractZipRecursive` and in `extractGzipRecursive`: once the file is written, the result is
the result of the call of `ExtractRecursive` on it when its bytes have a signature (so the
call is made, and nothing is returned before it returns), and does not depend on
`ExtractRecursive` when they have none; a directory entry is processed without any use of
`ExtractRecursive` or `IsZipOrGzip`. -/
theorem recursion_follows_signature (codec : Codec) (fuel : Nat) (fs : FS) (p : Bytes)
    (r : Run) (h : ExtractRecursive codec fuel fs p = some r) :
    r.trace.head? = some (.extracting p) ∧
    List.Chain' RecursionRule r.trace ∧
    (∀ q c, r.trace.getLast? = some (.wrote q c) → ¬ hasSignature c) ∧
    (∀ (fs1 : FS) (q c : Bytes), fs1.node q = some (.file c) →
      (IsZipOrGzip fs1 q = true ↔ hasSignature c)) ∧
    (∀ (recur : FS → Bytes → Option Run) (p1 opened d : Bytes) (f : ZipEntry)
      (fs0 fs1 : FS) (data : Bytes), f.IsDir = false →
      codec.openEntry opened f (archiveContent fs0 p1) = none →
      Create fs0 (Join [d, f.name]) = (fs1, none) →
      codec.readEntry opened f (archiveContent fs1 p1) = (data, none) →
      (hasSignature data →
        extractZipEntry codec recur p1 opened d f fs0 =
          (recur (writeFile fs1 (Join [d, f.name]) data) (Join [d, f.name])).map
            (fun r1 => ⟨r1.err.map
                (GoError.wrap (str "failed to recursively extract " ++ Join [d, f.name])),
              r1.fs, .wrote (Join [d, f.name]) data :: r1.trace⟩)) ∧
      (¬ hasSignature data →
        extractZipEntry codec recur p1 opened d f fs0 =
          some ⟨none, writeFile fs1 (Join [d, f.name]) data,
            [.wrote (Join [d, f.name]) data]⟩)) ∧
    (∀ (recur : FS → Bytes → Option Run) (fs0 fs1 fs2 : FS) (p1 content data : Bytes)
      (gz : GzipStream),
      MkdirAll fs0 (removeAllExtensions p1) 0o755 = (fs1, none) →
      fs1.node p1 = some (.file content) → codec.newGzipReader content = .ok gz →
      Create fs1 (Join [removeAllExtensions p1,
        gzipOutName (removeAllExtensions p1) gz]) = (fs2, none) →
      gzipDelivered codec p1 content (Join [removeAllExtensions p1,
        gzipOutName (removeAllExtensions p1) gz]) gz = (data, none) →
      (hasSignature data →
        extractGzipRecursive codec recur fs0 p1 =
          (recur (writeFile fs2 (Join [removeAllExtensions p1,
              gzipOutName (removeAllExtensions p1) gz]) data)
            (Join [removeAllExtensions p1, gzipOutName (removeAllExtensions p1) gz])).map
            (fun r1 => ⟨r1.err.map
                (GoError.wrap (str "failed to recursively extract " ++
                  Join [removeAllExtensions p1, gzipOutName (removeAllExtensions p1) gz])),
              r1.fs, .wrote (Join [removeAllExtensions p1,
                gzipOutName (removeAllExtensions p1) gz]) data :: r1.trace⟩)) ∧
      (¬ hasSignature data →
        extractGzipRecursive codec recur fs0 p1 =
          some ⟨none, writeFile fs2 (Join [removeAllExtensions p1,
              gzipOutName (removeAllExtensions p1) gz]) data,
            [.wrote (Join [removeAllExtensions p1,
              gzipOutName (removeAllExtensions p1) gz]) data]⟩)) ∧
    (∀ (recur : FS → Bytes → Option Run) (p1 opened d : Bytes) (f : ZipEntry) (fs1 : FS),
      f.IsDir = true →
      extractZipEntry codec recur p1 opened d f fs1 =
        some ⟨(MkdirAll fs1 (Join [d, f.name]) f.mode).2.map
            (GoError.wrap (str "failed to create directory")),
          (MkdirAll fs1 (Join [d, f.name]) f.mode).1, []⟩) := by
  obtain ⟨h1, h2, h3⟩ := ExtractRecursive_bySignature codec fuel fs p r h
  refine ⟨h1, h2, h3, fun fs1 q c hn => IsZipOrGzip_file fs1 q c hn, ?_, ?_, ?_⟩
  · intro recur p1 opened d f fs0 fs1 data hfile hopen hc hread
    have hnode := node_writeFile fs0 fs1 (Join [d, f.name]) data hc
    have hstep : extractZipEntry codec recur p1 opened d f fs0 =
        extractNested recur (writeFile fs1 (Join [d, f.name]) data) (Join [d, f.name])
          data := by
      unfold extractZipEntry
      simp only [hfile, Bool.false_eq_true, if_false, hopen, hc, hread]
    rw [hstep]
    exact extractNested_eq recur _ _ data hnode
  · intro recur fs0 fs1 fs2 p1 content data gz hm hnode hgz hc hread
    have hnode2 := node_writeFile fs1 fs2 _ data hc
    have hstep : extractGzipRecursive codec recur fs0 p1 =
        extractNested recur (writeFile fs2 (Join [removeAllExtensions p1,
          gzipOutName (removeAllExtensions p1) gz]) data)
          (Join [removeAllExtensions p1, gzipOutName (removeAllExtensions p1) gz]) data := by
      unfold extractGzipRecursive
      simp only [hm, hnode, hgz, hc, hread]
    rw [hstep]
    exact extractNested_eq recur _ _ data hnode2
  · intro recur p1 opened d f fs1 hdir
    unfold extractZipEntry
    simp only [hdir, if_true]
    cases hm : MkdirAll fs1 (Join [d, f.name]) f.mode with
    | mk fs2 em => cases em <;> rfl

/-- C8, at the archive `outer.bar` of the test: the one recursive call is on
`outer/nested.appzip`, right after it was written; `outer/file1.txt` is a leaf. -/
theorem recursion_follows_signature_witness :
    (ExtractRecursive exampleCodec 3 (oneFile (str "outer.bar") outerBar)
      (str "outer.bar")).map (fun r => r.trace) =
      some [.extracting (str "outer.bar"),
        .wrote (str "outer/file1.txt") (str "hello world"),
        .wrote (str "outer/nested.appzip") nestedAppzip,
        .extracting (str "outer/nested.appzip"),
        .wrote (str "outer/nested/file_in_nested.txt") []] ∧
    ∃ r, ExtractRecursive exampleCodec 3 (oneFile (str "outer.bar") outerBar)
        (str "outer.bar") = some r ∧
      r.trace.head? = some (.extracting (str "outer.bar")) ∧
      List.Chain' RecursionRule r.trace ∧
      (∀ q c, r.trace.getLast? = some (.wrote q c) → ¬ hasSignature c) := by
  refine ⟨by decide, ?_⟩
  have hs : (ExtractRecursive exampleCodec 3 (oneFile (str "outer.bar") outerBar)
      (str "outer.bar")).isSome = true := by decide
  obtain ⟨r, hr⟩ := Option.isSome_iff_exists.1 hs
  exact ⟨r, hr, (recursion_follows_signature exampleCodec 3 _ _ r hr).1,
    (recursion_follows_signature exampleCodec 3 _ _ r hr).2.1,
    (recursion_follows_signature exampleCodec 3 _ _ r hr).2.2.1⟩

/-- C10. For an existing regular file at a path `p` whose last slash-separated element has
no dot, `removeAllExtensions(p) = p`, `os.MkdirAll` on it fails on the regular file, and
`ExtractRecursive(p)` returns an error with nothing written and the filesystem unchanged. In
particular the fallback output of a gzip stream, `path.Join(d, path.Base(d))` for `d` with a
non-empty last element without dot, is its own destination, so a gzip stream without an
embedded name whose data is a supported archive makes the whole extraction fail. -/
theorem extensionless_archive_fails (codec : Codec) (fuel : Nat) (fs : FS)
    (p content : Bytes) (hfile : fs.node p = some (.file content))
    (hdot : dot ∉ lastElement p) :
    removeAllExtensions p = p ∧
    MkdirAll fs (removeAllExtensions p) 0o755 =
      (fs, some (.pathError (str "mkdir") p .ENOTDIR)) ∧
    (∃ e, ExtractRecursive codec (fuel + 1) fs p = some ⟨some e, fs, [.extracting p]⟩) ∧
    (∀ d : Bytes, lastElement d ≠ [] → dot ∉ lastElement d →
      removeAllExtensions (Join [d, Base d]) = Join [d, Base d]) ∧
    (∀ (fs1 : FS) (q content1 : Bytes) (gz : GzipStream),
      fs1.node q = some (.file content1) → isZipFile fs1 q = false →
      codec.newGzipReader content1 = .ok gz → gz.name = [] → hasSignature gz.data →
      lastElement (removeAllExtensions q) ≠ [] →
      ∃ r e, ExtractRecursive codec (fuel + 2) fs1 q = some r ∧ r.err = some e) := by
  have hd := removeAllExtensions_fixed p hdot
  refine ⟨hd, ?_, ?_, ?_, ?_⟩
  · rw [hd]; exact MkdirAll_on_file fs p content 0o755 hfile
  · obtain ⟨e, he, _⟩ := ExtractRecursive_extensionless codec fuel fs p content hfile hdot
    exact ⟨e, he⟩
  · intro d h1 h2
    exact removeAllExtensions_fallback d h1 h2
  · intro fs1 q content1 gz h1 h2 h3 h4 h5 h6
    exact gzip_fallback_fails codec fuel fs1 q content1 gz h1 h2 h3 h4 h5 h6

/-- C10, at an archive stored as "inner" (the archive `nested.appzip` of the test under a
name without extension), and at a gzip stream "t.gz" without embedded name that holds that
archive: its output "t/t" cannot be extracted. -/
theorem extensionless_archive_fails_witness :
    (oneFile (str "inner") nestedAppzip).node (str "inner") = some (.file nestedAppzip) ∧
    removeAllExtensions (str "inner") = str "inner" ∧
    (∃ e, ExtractRecursive exampleCodec 1 (oneFile (str "inner") nestedAppzip) (str "inner") =
      some ⟨some e, oneFile (str "inner") nestedAppzip, [.extracting (str "inner")]⟩) ∧
    (∃ r e, ExtractRecursive exampleCodec 2
      (oneFile (str "t.gz") (exampleGzip [] nestedAppzip)) (str "t.gz") = some r ∧
      r.err = some e) ∧
    (ExtractRecursive exampleCodec 2 (oneFile (str "t.gz") (exampleGzip [] nestedAppzip))
      (str "t.gz")).map (fun r => (r.err.map GoError.Error, r.trace)) =
      some (some (str ("failed to recursively extract t/t: failed to create destination " ++
          "directory: mkdir t/t: not a directory")),
        [.extracting (str "t.gz"), .wrote (str "t/t") nestedAppzip,
          .extracting (str "t/t")]) :=
  ⟨by decide,
    (extensionless_archive_fails exampleCodec 0 (oneFile (str "inner") nestedAppzip)
      (str "inner") nestedAppzip (by decide) (by decide)).1,
    (extensionless_archive_fails exampleCodec 0 (oneFile (str "inner") nestedAppzip)
      (str "inner") nestedAppzip (by decide) (by decide)).2.2.1,
    (extensionless_archive_fails exampleCodec 0 (oneFile (str "inner") nestedAppzip)
      (str "inner") nestedAppzip (by decide) (by decide)).2.2.2.2
      (oneFile (str "t.gz") (exampleGzip [] nestedAppzip)) (str "t.gz")
      (exampleGzip [] nestedAppzip) ⟨[], nestedAppzip, none⟩
      (by decide) (by decide) rfl rfl (by decide) (by decide),
    by decide⟩

/-- C6, as stated, fails: a gzip archive path for which no output file is written. The file
"plain" holds a gzip stream that `gzip.NewReader` accepts, but its path has no extension,
so the destination directory is the file itself and `extractGzipRecursive` returns an error
with nothing written. The file "a.gz" holds a gzip stream with the embedded name "sub/x";
the directory "a/sub" is not created, `os.Create` fails and nothing is written. -/
theorem gzip_stream_without_output :
    exampleCodec.newGzipReader (exampleGzip [] (str "test")) =
      .ok ⟨[], str "test", none⟩ ∧
    (extractGzipRecursive exampleCodec (ExtractRecursive exampleCodec 1)
      (oneFile (str "plain") (exampleGzip [] (str "test"))) (str "plain")).map
        (fun r => (r.err.map GoError.Error, r.trace, r.fs.node (str "plain"),
          r.fs.node (str "plain/plain"))) =
      some (some (str ("failed to create destination directory: mkdir plain: " ++
          "not a directory")),
        [], some (.file (exampleGzip [] (str "test"))), none) ∧
    exampleCodec.newGzipReader (exampleGzip (str "sub/x") (str "test")) =
      .ok ⟨str "sub/x", str "test", none⟩ ∧
    (extractGzipRecursive exampleCodec (ExtractRecursive exampleCodec 1)
      (oneFile (str "a.gz") (exampleGzip (str "sub/x") (str "test"))) (str "a.gz")).map
        (fun r => (r.err.map GoError.Error, r.trace, r.fs.node (str "a/sub/x"))) =
      some (some (str ("failed to create decompressed file: open a/sub/x: " ++
          "no such file or directory")),
        [], none) :=
  ⟨rfl, by decide, rfl, by decide⟩

/-- C6 (amended). A run of `extractGzipRecursive` on `p`, with `d = removeAllExtensions(p)`,
writes at most one file itself. Either it returns an error before anything is written (the
destination directory cannot be created, the stream cannot be opened, or the output file
cannot be created), or it creates one file, at `path.Join(d, name)`, where `name` is the
embedded original filename of the stream when that is not empty and `path.Base(d)`
otherwise, and copies the decompressed bytes into it: when the copy fails the run ends
there with an error, otherwise everything written after it is written by the recursive call
on that file. When the destination directory and the output file can be created, the
stream decompresses without error and the data has no signature, the run is that one
write and returns no error. A stream without embedded name at "testgzip1.gz" is written to
"testgzip1/testgzip1", one with the name "data.txt" to "testgzip1/data.txt". -/
theorem gzip_single_output (codec : Codec) (recur : FS → Bytes → Option Run) (fs : FS)
    (p : Bytes) :
    (∀ r, extractGzipRecursive codec recur fs p = some r →
      (r.trace = [] ∧ r.err ≠ none) ∨
      ∃ fs1 content gz fs2 data copyErr,
        MkdirAll fs (removeAllExtensions p) 0o755 = (fs1, none) ∧
        fs1.node p = some (.file content) ∧ codec.newGzipReader content = .ok gz ∧
        Create fs1 (Join [removeAllExtensions p,
          if gz.name = [] then Base (removeAllExtensions p) else gz.name]) = (fs2, none) ∧
        gzipDelivered codec p content (Join [removeAllExtensions p,
          if gz.name = [] then Base (removeAllExtensions p) else gz.name]) gz =
            (data, copyErr) ∧
        (writeFile fs2 (Join [removeAllExtensions p,
          if gz.name = [] then Base (removeAllExtensions p) else gz.name]) data).node
            (Join [removeAllExtensions p,
              if gz.name = [] then Base (removeAllExtensions p) else gz.name]) =
          some (.file data) ∧
        ((copyErr ≠ none ∧ r.err ≠ none ∧
            r.trace = [.copyFailed (Join [removeAllExtensions p,
              if gz.name = [] then Base (removeAllExtensions p) else gz.name]) data]) ∨
          (copyErr = none ∧ ∃ nested,
            r.trace = .wrote (Join [removeAllExtensions p,
              if gz.name = [] then Base (removeAllExtensions p) else gz.name]) data ::
                nested ∧
            (nested = [] ∨ ∃ r1, recur (writeFile fs2 (Join [removeAllExtensions p,
              if gz.name = [] then Base (removeAllExtensions p) else gz.name]) data)
                (Join [removeAllExtensions p,
                  if gz.name = [] then Base (removeAllExtensions p) else gz.name]) =
                  some r1 ∧
                r1.trace = nested)))) ∧
    (∀ fs1 content gz fs2 data,
      MkdirAll fs (removeAllExtensions p) 0o755 = (fs1, none) →
      fs1.node p = some (.file content) → codec.newGzipReader content = .ok gz →
      Create fs1 (Join [removeAllExtensions p,
        if gz.name = [] then Base (removeAllExtensions p) else gz.name]) = (fs2, none) →
      gzipDelivered codec p content (Join [removeAllExtensions p,
        if gz.name = [] then Base (removeAllExtensions p) else gz.name]) gz = (data, none) →
      ¬ hasSignature data →
      extractGzipRecursive codec recur fs p =
        some ⟨none, writeFile fs2 (Join [removeAllExtensions p,
            if gz.name = [] then Base (removeAllExtensions p) else gz.name]) data,
          [.wrote (Join [removeAllExtensions p,
            if gz.name = [] then Base (removeAllExtensions p) else gz.name]) data]⟩) ∧
    (∀ content destPath gz, Clean destPath ≠ Clean p →
      gzipDelivered codec p content destPath gz = (gz.data, gz.copyErr)) ∧
    (extractGzipRecursive exampleCodec (ExtractRecursive exampleCodec 0)
      (oneFile (str "testgzip1.gz") (exampleGzip [] (str "test")))
      (str "testgzip1.gz")).map
        (fun r => (r.err, r.trace, r.fs.node (str "testgzip1/testgzip1"))) =
      some (none, [.wrote (str "testgzip1/testgzip1") (str "test")],
        some (.file (str "test"))) ∧
    (extractGzipRecursive exampleCodec (ExtractRecursive exampleCodec 0)
      (oneFile (str "testgzip1.gz") (exampleGzip (str "data.txt") (str "test")))
      (str "testgzip1.gz")).map
        (fun r => (r.err, r.trace, r.fs.node (str "testgzip1/data.txt"))) =
      some (none, [.wrote (str "testgzip1/data.txt") (str "test")],
        some (.file (str "test"))) := by
  refine ⟨?_, ?_, ?_, by decide, by decide⟩
  · intro r hr
    rcases gzip_trace_shape codec recur fs p r hr with h | ⟨fs1, content, gz, fs2, data,
      copyErr, h1, h2, h3, h4, h5, h6⟩
    · exact Or.inl h
    · have hnode := node_writeFile fs1 fs2 _ data h4
      simp only [gzipOutName] at h4 h5 h6 hnode
      exact Or.inr ⟨fs1, content, gz, fs2, data, copyErr, h1, h2, h3, h4, h5, hnode, h6⟩
  · intro fs1 content gz fs2 data h1 h2 h3 h4 h5 h6
    have := gzip_plain_output codec recur fs fs1 fs2 p content data gz h1 h2 h3
      (by simpa only [gzipOutName] using h4) (by simpa only [gzipOutName] using h5) h6
    simpa only [gzipOutName] using this
  · intro content destPath gz hne
    simp [gzipDelivered, hne]

/-- C6 (amended), at a stream without embedded name stored as "testgzip1.gz". -/
theorem gzip_single_output_witness :
    extractGzipRecursive exampleCodec (ExtractRecursive exampleCodec 0)
      (oneFile (str "testgzip1.gz") (exampleGzip [] (str "test"))) (str "testgzip1.gz") =
      some ⟨none,
        writeFile (Create (MkdirAll (oneFile (str "testgzip1.gz") (exampleGzip [] (str "test")))
            (removeAllExtensions (str "testgzip1.gz")) 0o755).1
          (Join [removeAllExtensions (str "testgzip1.gz"),
            if ([] : Bytes) = [] then Base (removeAllExtensions (str "testgzip1.gz"))
            else []])).1
          (Join [removeAllExtensions (str "testgzip1.gz"),
            if ([] : Bytes) = [] then Base (removeAllExtensions (str "testgzip1.gz"))
            else []]) (str "test"),
        [.wrote (Join [removeAllExtensions (str "testgzip1.gz"),
          if ([] : Bytes) = [] then Base (removeAllExtensions (str "testgzip1.gz"))
          else []]) (str "test")]⟩ ∧
    Join [removeAllExtensions (str "testgzip1.gz"),
      Base (removeAllExtensions (str "testgzip1.gz"))] = str "testgzip1/testgzip1" :=
  ⟨(gzip_single_output exampleCodec (ExtractRecursive exampleCodec 0)
      (oneFile (str "testgzip1.gz") (exampleGzip [] (str "test")))
      (str "testgzip1.gz")).2.1 _ (exampleGzip [] (str "test")) ⟨[], str "test", none⟩ _
      (str "test")
      (Prod.ext rfl (by decide)) (by decide) rfl (Prod.ext rfl (by decide)) (by decide)
      (by decide),
    by decide⟩

/-- C7, as stated, fails: when the copy of the entry "b.txt" ends in a checksum error, the
error returned is "failed to copy file: zip: checksum error"; it does not name the entry,
and the same archive with the entry named "z.txt" returns the same error. -/
theorem copy_error_does_not_name_entry :
    (ExtractRecursive exampleCodec 2 (oneFile (str "o.zip") zipOfBadSecond)
      (str "o.zip")).map (fun r => r.err) =
      some (some (.wrap (str "failed to copy file") (.msg (str "zip: checksum error")))) ∧
    (ExtractRecursive exampleCodec 2
      (oneFile (str "o.zip") (exampleZip [exampleEntry 0 (str "a") (str "x"),
        exampleEntry 3 (str "z.txt") (str "xy"), exampleEntry 0 (str "c") (str "x")]))
      (str "o.zip")).map (fun r => r.err) =
      some (some (.wrap (str "failed to copy file") (.msg (str "zip: checksum error")))) ∧
    (GoError.wrap (str "failed to copy file") (.msg (str "zip: checksum error"))).Error =
      str "failed to copy file: zip: checksum error" ∧
    ¬ (str "b.txt" <:+: str "failed to copy file: zip: checksum error") := by
  decide

/-- C7 (amended). In `extractZipRecursive`, when the entries before `f` were processed
without error (leaving `r0`) and `f` is a file entry: if opening it fails, or creating its
file fails, or copying it fails, the function returns at once the cause wrapped under
"failed to open file in zip", "failed to create file" or "failed to copy file"; no later
entry is read (the result does not depend on them), the filesystem is the one the earlier
entries left, with the partly written file when the copy failed, and the result names the
entry only through the cause (the path error of `os.Create` carries the destination path).
When the recursive call on a written file fails, `extractZipRecursive` and
`extractGzipRecursive` alike return its error wrapped under
"failed to recursively extract " followed by the path of the nested archive. So every error
`ExtractRecursive` returns is the error of a step of one call (`base`), on an archive
reached through a chain of nested archives, each written by the call on the one before and
extracted because its bytes have a signature, wrapped once for every archive of the chain,
the outermost first: its message names the paths of the chain in that order, in front of
the message of `base`, and its cause is the cause of `base`. -/
theorem entry_failure_stops_extraction (codec : Codec) (recur : FS → Bytes → Option Run)
    (fs fs1 : FS) (p content : Bytes) (pre post : List ZipEntry) (f : ZipEntry) (r0 : Run)
    (hnode : fs.node p = some (.file content))
    (hopen : codec.openZip content = .ok (pre ++ f :: post))
    (hmk : MkdirAll fs (removeAllExtensions p) 0o755 = (fs1, none))
    (hpre : extractZipEntries codec recur p content (removeAllExtensions p) pre fs1 =
      some r0)
    (hok : r0.err = none) (hfile : f.IsDir = false) :
    (∀ e, codec.openEntry content f (archiveContent r0.fs p) = some e →
      extractZipRecursive codec recur fs p =
        some ⟨some (.wrap (str "failed to open file in zip") e), r0.fs, r0.trace⟩) ∧
    (codec.openEntry content f (archiveContent r0.fs p) = none → ∀ fs2 e,
      Create r0.fs (Join [removeAllExtensions p, f.name]) = (fs2, some e) →
      extractZipRecursive codec recur fs p =
        some ⟨some (.wrap (str "failed to create file") e), r0.fs, r0.trace⟩ ∧
      ∃ errno, e = .pathError (str "open") (Join [removeAllExtensions p, f.name]) errno) ∧
    (codec.openEntry content f (archiveContent r0.fs p) = none → ∀ fs2 data e,
      Create r0.fs (Join [removeAllExtensions p, f.name]) = (fs2, none) →
      codec.readEntry content f (archiveContent fs2 p) = (data, some e) →
      extractZipRecursive codec recur fs p =
        some ⟨some (.wrap (str "failed to copy file") e),
          writeFile fs2 (Join [removeAllExtensions p, f.name]) data,
          r0.trace ++ [.copyFailed (Join [removeAllExtensions p, f.name]) data]⟩ ∧
      Frame r0.fs (writeFile fs2 (Join [removeAllExtensions p, f.name]) data)
        [.copyFailed (Join [removeAllExtensions p, f.name]) data]) ∧
    (codec.openEntry content f (archiveContent r0.fs p) = none → ∀ fs2 data r1 e,
      Create r0.fs (Join [removeAllExtensions p, f.name]) = (fs2, none) →
      codec.readEntry content f (archiveContent fs2 p) = (data, none) →
      hasSignature data →
      recur (writeFile fs2 (Join [removeAllExtensions p, f.name]) data)
        (Join [removeAllExtensions p, f.name]) = some r1 →
      r1.err = some e →
      extractZipRecursive codec recur fs p =
        some ⟨some (.wrap
            (str "failed to recursively extract " ++ Join [removeAllExtensions p, f.name]) e),
          r1.fs, r0.trace ++ .wrote (Join [removeAllExtensions p, f.name]) data :: r1.trace⟩) ∧
    (∀ (fs0 fs3 fs4 : FS) (q content1 data : Bytes) (gz : GzipStream) (r1 : Run)
      (e : GoError),
      MkdirAll fs0 (removeAllExtensions q) 0o755 = (fs3, none) →
      fs3.node q = some (.file content1) → codec.newGzipReader content1 = .ok gz →
      Create fs3 (Join [removeAllExtensions q,
        gzipOutName (removeAllExtensions q) gz]) = (fs4, none) →
      gzipDelivered codec q content1 (Join [removeAllExtensions q,
        gzipOutName (removeAllExtensions q) gz]) gz = (data, none) →
      hasSignature data →
      recur (writeFile fs4 (Join [removeAllExtensions q,
          gzipOutName (removeAllExtensions q) gz]) data)
        (Join [removeAllExtensions q, gzipOutName (removeAllExtensions q) gz]) = some r1 →
      r1.err = some e →
      extractGzipRecursive codec recur fs0 q =
        some ⟨some (.wrap (str "failed to recursively extract " ++
            Join [removeAllExtensions q, gzipOutName (removeAllExtensions q) gz]) e),
          r1.fs, .wrote (Join [removeAllExtensions q,
            gzipOutName (removeAllExtensions q) gz]) data :: r1.trace⟩) ∧
    (∀ (fuel : Nat) (fs0 : FS) (q : Bytes) (r : Run) (e : GoError),
      ExtractRecursive codec fuel fs0 q = some r → r.err = some e →
      ∃ chain base, e = wrapNested chain base ∧ FailsInside codec chain fuel fs0 q r base ∧
        e.Error =
          (chain.map (fun a => str "failed to recursively extract " ++ a ++ str ": ")).flatten ++
            base.Error ∧
        e.cause = base.cause) := by
  have hreader : codec.OpenReader fs p = .ok (pre ++ f :: post) := by
    simp [Codec.OpenReader, hnode, hopen]
  have hlevel : extractZipRecursive codec recur fs p =
      extractZipEntries codec recur p content (removeAllExtensions p) (pre ++ f :: post)
        fs1 := by
    unfold extractZipRecursive
    simp [hreader, hmk, archiveContent_of_node fs p content hnode]
  have hstop := fun r1 e => extractZipEntries_stops codec recur p content
    (removeAllExtensions p) pre post f fs1 r0 r1 e hpre hok
  refine ⟨?_, ?_, ?_, ?_, ?_, ?_⟩
  · intro e he
    rw [hlevel, hstop ⟨some (.wrap (str "failed to open file in zip") e), r0.fs, []⟩ _
      (by unfold extractZipEntry; simp [hfile, he]) rfl]
    simp [Run.after]
  · intro ho fs2 e hc
    obtain ⟨hfs, herrno⟩ := Create_err _ _ _ _ hc
    refine ⟨?_, herrno⟩
    rw [hlevel, hstop ⟨some (.wrap (str "failed to create file") e), fs2, []⟩ _
      (by unfold extractZipEntry; simp [hfile, ho, hc]) rfl]
    simp [Run.after, hfs]
  · intro ho fs2 data e hc hread
    refine ⟨?_, frame_copyFailed data hc⟩
    rw [hlevel, hstop ⟨some (.wrap (str "failed to copy file") e),
      writeFile fs2 (Join [removeAllExtensions p, f.name]) data,
      [.copyFailed (Join [removeAllExtensions p, f.name]) data]⟩ _
      (by unfold extractZipEntry; simp [hfile, ho, hc, hread]) rfl]
    simp [Run.after]
  · intro ho fs2 data r1 e hc hread hsig hr1 he
    have hn := (extractNested_eq recur _ _ data
      (node_writeFile r0.fs fs2 (Join [removeAllExtensions p, f.name]) data hc)).1 hsig
    rw [hlevel, hstop ⟨some (.wrap
        (str "failed to recursively extract " ++ Join [removeAllExtensions p, f.name]) e),
      r1.fs, .wrote (Join [removeAllExtensions p, f.name]) data :: r1.trace⟩ _
      (by unfold extractZipEntry; simp [hfile, ho, hc, hread, hn, hr1, he]) rfl]
    simp [Run.after]
  · intro fs0 fs3 fs4 q content1 data gz r1 e hm hn hgz hc hread hsig hr1 he
    have hx := (extractNested_eq recur _ _ data (node_writeFile fs3 fs4 _ data hc)).1 hsig
    unfold extractGzipRecursive
    simp only [hm, hn, hgz, hc, hread]
    rw [hx, hr1]
    simp [he]
  · intro fuel fs0 q r e hr he
    obtain ⟨chain, base, h1, h2⟩ := ExtractRecursive_fails_inside codec fuel fs0 q r e hr he
    exact ⟨chain, base, h1, h2, by rw [h1]; exact wrapNested_Error chain base,
      by rw [h1]; exact wrapNested_cause chain base⟩

/-- The first entry of the archive of three entries is processed. -/
theorem three_entries_first_isSome :
    (extractZipEntries exampleCodec (ExtractRecursive exampleCodec 1) (str "o.zip")
      zipOfBadSecond (removeAllExtensions (str "o.zip")) [⟨str "a", 0o644, 4⟩]
      (MkdirAll (oneFile (str "o.zip") zipOfBadSecond)
        (removeAllExtensions (str "o.zip")) 0o755).1).isSome = true := by
  decide

/-- The archive with the failing nested archive is processed. -/
theorem bad_nested_isSome :
    (ExtractRecursive exampleCodec 4 (oneFile (str "o.zip") zipOfBadNested)
      (str "o.zip")).isSome = true := by
  decide

/-- C7 (amended), at an archive "o.zip" of three entries whose second entry, "b.txt", ends
in a checksum error: the first entry is written, the error is the wrapped checksum error,
and the third entry is not read. And at an archive "o.zip" whose entry "m.zip" is an archive
with an entry that ends in a checksum error, and at a gzip stream "t.gz" whose data is an
archive with an entry that cannot be opened: the error names the path of the nested
archive. -/
theorem entry_failure_stops_extraction_witness :
    (∃ r0 fs2,
      extractZipEntries exampleCodec (ExtractRecursive exampleCodec 1) (str "o.zip")
        zipOfBadSecond (removeAllExtensions (str "o.zip")) [⟨str "a", 0o644, 4⟩]
        (MkdirAll (oneFile (str "o.zip") zipOfBadSecond)
          (removeAllExtensions (str "o.zip")) 0o755).1 = some r0 ∧
      r0.err = none ∧
      r0.trace = [.wrote (str "o/a") (str "x")] ∧
      Create r0.fs (Join [removeAllExtensions (str "o.zip"), str "b.txt"]) = (fs2, none) ∧
      extractZipRecursive exampleCodec (ExtractRecursive exampleCodec 1)
        (oneFile (str "o.zip") zipOfBadSecond) (str "o.zip") =
        some ⟨some (.wrap (str "failed to copy file") (.msg (str "zip: checksum error"))),
          writeFile fs2 (Join [removeAllExtensions (str "o.zip"), str "b.txt"]) (str "xy"),
          r0.trace ++ [.copyFailed (Join [removeAllExtensions (str "o.zip"), str "b.txt"])
            (str "xy")]⟩) ∧
    (∃ r e chain base,
      ExtractRecursive exampleCodec 4 (oneFile (str "o.zip") zipOfBadNested)
        (str "o.zip") = some r ∧
      r.err = some e ∧ e = wrapNested chain base ∧
      FailsInside exampleCodec chain 4 (oneFile (str "o.zip") zipOfBadNested)
        (str "o.zip") r base) ∧
    (ExtractRecursive exampleCodec 4 (oneFile (str "o.zip") zipOfBadNested)
      (str "o.zip")).map (fun r => (r.err.map GoError.Error, r.trace)) =
      some (some (str ("failed to recursively extract o/m.zip: failed to copy file: " ++
          "zip: checksum error")),
        [.extracting (str "o.zip"), .wrote (str "o/a") (str "x"),
          .wrote (str "o/m.zip")
            (exampleZip [exampleEntry 0 (str "ok") (str "1"),
              exampleEntry 3 (str "bad") (str "xy")]),
          .extracting (str "o/m.zip"), .wrote (str "o/m/ok") (str "1"),
          .copyFailed (str "o/m/bad") (str "xy")]) ∧
    (ExtractRecursive exampleCodec 4 (oneFile (str "t.gz") gzipOfBadZip)
      (str "t.gz")).map (fun r => (r.err.map GoError.Error, r.trace)) =
      some (some (str ("failed to recursively extract t/m.zip: failed to open file in " ++
          "zip: zip: unsupported compression algorithm")),
        [.extracting (str "t.gz"),
          .wrote (str "t/m.zip") (exampleZip [exampleEntry 2 (str "bad") (str "xy")]),
          .extracting (str "t/m.zip")]) := by
  have key := entry_failure_stops_extraction exampleCodec (ExtractRecursive exampleCodec 1)
    (oneFile (str "o.zip") zipOfBadSecond) _ (str "o.zip") zipOfBadSecond
    [⟨str "a", 0o644, 4⟩] [⟨str "c", 0o644, 19⟩] ⟨str "b.txt", 0o644, 9⟩
    (Option.get _ three_entries_first_isSome) (by decide) rfl (Prod.ext rfl (by decide))
    (Option.some_get three_entries_first_isSome).symm (by decide) rfl
  refine ⟨⟨Option.get _ three_entries_first_isSome, _,
    (Option.some_get three_entries_first_isSome).symm, by decide, by decide,
    Prod.ext rfl (by decide), ?_⟩, ?_, by decide, by decide⟩
  · exact (key.2.2.1 (by decide) _ (str "xy") (.msg (str "zip: checksum error"))
      (Prod.ext rfl (by decide)) (by decide)).1
  · have herr : ((Option.get _ bad_nested_isSome).err).isSome = true := by decide
    obtain ⟨chain, base, h1, h2, _⟩ := key.2.2.2.2.2 4 _ (str "o.zip")
      (Option.get _ bad_nested_isSome) (Option.get _ herr)
      (Option.some_get bad_nested_isSome).symm (Option.some_get herr).symm
    exact ⟨_, _, chain, base, (Option.some_get bad_nested_isSome).symm,
      (Option.some_get herr).symm, h1, h2⟩

end BarExtract
